import Mathlib

/-!
Verification of the jumpbot routing/resolution engine (src/jumpbot.py)
against its natural-language specification.

The Python program manipulates IEEE-754 doubles through `float(...)`,
`round(..., 1)` and `math.copysign`.  We model a CPython double exactly as an
unnormalized nonnegative fraction (numerator/denominator over `Nat`)
together with a sign bit; the sign bit is needed because
`copysign(1, -0.0) == -1.0` is load-bearing in `get_sec_status`.  `float(s)`
is the nearest double to the decimal value of `s` (ties to even), and
`round(x, 1)` is CPython's correctly-rounded decimal rounding: round the
exact binary value of `x` to the nearest multiple of 1/10 (ties to even) and
re-read the result as the nearest double, preserving the sign bit.
-/

namespace Jumpbot

/-- An exact nonnegative rational `n / d`.  Every constructor in this
development supplies `d ≠ 0`; fractions are never normalized, and all
comparisons cross-multiply. -/
structure Frac where
  n : Nat
  d : Nat
  deriving DecidableEq, Repr

/-- The rational value of a `Frac` (for stating properties). -/
def Frac.val (q : Frac) : Rat := (q.n : Rat) / (q.d : Rat)

/-- Value comparison `a ≤ b` by cross-multiplication. -/
def fracLe (a b : Frac) : Bool := a.n * b.d ≤ b.n * a.d

/-- Value comparison `a < b` by cross-multiplication. -/
def fracLt (a b : Frac) : Bool := a.n * b.d < b.n * a.d

/-- Round a nonnegative fraction to the nearest integer, ties to even. -/
def roundHalfEvenNat (q : Frac) : Nat :=
  let f := q.n / q.d
  let r := q.n % q.d
  if 2 * r < q.d then f
  else if q.d < 2 * r then f + 1
  else if f % 2 = 0 then f else f + 1

/-- Is `q < 2 ^ e` (integer exponent, possibly negative)? -/
def fracLtPow2 (q : Frac) (e : Int) : Bool :=
  if 0 ≤ e then q.n < 2 ^ e.toNat * q.d else q.n * 2 ^ (-e).toNat < q.d

/-- Fuel-driven base-2 logarithm on `Nat` (structural recursion, so it
evaluates inside the kernel; `Nat.log2` itself is defined by well-founded
recursion and does not). -/
def natLog2Go (fuel : Nat) (n : Nat) : Nat :=
  match fuel with
  | 0 => 0
  | fuel + 1 => if 2 ≤ n then natLog2Go fuel (n / 2) + 1 else 0

/-- `⌊log₂ n⌋` (and `0` for `n ≤ 1`). -/
def natLog2 (n : Nat) : Nat := natLog2Go n n

/-- Floor of the base-2 logarithm of a positive fraction. -/
def fracLog2 (q : Frac) : Int :=
  let cand : Int := (natLog2 q.n : Int) - (natLog2 q.d : Int)
  if fracLtPow2 q cand then cand - 1 else cand

/-- `q * 2 ^ e` for an integer exponent. -/
def fracMulPow2 (q : Frac) (e : Int) : Frac :=
  if 0 ≤ e then ⟨q.n * 2 ^ e.toNat, q.d⟩ else ⟨q.n, q.d * 2 ^ (-e).toNat⟩

/-- The IEEE-754 binary64 value nearest to a nonnegative fraction (ties to
even): with `e` the floor log2, scale by `2 ^ (52 - e)`, round to the
nearest integer mantissa (ties to even), and scale back.  Inputs in this
development are far from the overflow and subnormal ranges, so the
normal-number formula applies. -/
def nearestDouble (q : Frac) : Frac :=
  if q.n = 0 then ⟨0, 1⟩
  else
    let e := fracLog2 q
    fracMulPow2 ⟨roundHalfEvenNat (fracMulPow2 q (52 - e)), 1⟩ (e - 52)

/-- A CPython float: sign bit plus exact nonnegative magnitude.
`neg = true` with magnitude `0` is `-0.0`. -/
structure PyFloat where
  neg : Bool
  mag : Frac
  deriving DecidableEq, Repr

/-- The signed rational value of a `PyFloat` (`-0.0` evaluates to `0`). -/
def PyFloat.val (x : PyFloat) : Rat :=
  if x.neg then -x.mag.val else x.mag.val

/-- Is the constant `c` (a positive fraction) at most the signed value of
`x`?  A negative-signed float is below every positive constant, whatever its
magnitude. -/
def fracLeVal (c : Frac) (x : PyFloat) : Bool :=
  if x.neg then false else fracLe c x.mag

/-- CPython `round(x, 1)`: correctly-rounded decimal rounding of the exact
binary value to one fractional digit (ties to even), the result being the
nearest double to that decimal; the sign bit is preserved (so
`round(-0.04, 1) == -0.0`). -/
def pyRound1 (x : PyFloat) : PyFloat :=
  ⟨x.neg, nearestDouble ⟨roundHalfEvenNat ⟨x.mag.n * 10, x.mag.d⟩, 10⟩⟩

/-- Numeric value of an ASCII digit character, `none` otherwise. -/
def digitVal (c : Char) : Option Nat :=
  if c.isDigit then some (c.toNat - 48) else none

/-- Accumulating decimal-digit parser (used by the model of `float(...)`). -/
def parseDigitsGo (acc : Nat) : List Char → Option Nat
  | [] => some acc
  | c :: rest =>
    match digitVal c with
    | some d => parseDigitsGo (acc * 10 + d) rest
    | none => none

/-- Parse a nonempty run of decimal digits. -/
def parseNatDigits (cs : List Char) : Option Nat :=
  if cs.isEmpty then none else parseDigitsGo 0 cs

/-- Parse the magnitude part of a decimal literal (`"0.452"`, `"1"`, `"5."`)
into its exact value `i + f / 10 ^ |frac|`. -/
def parseMag (cs : List Char) : Option Frac :=
  let ipart := cs.takeWhile (fun c => c ≠ '.')
  let rest := cs.dropWhile (fun c => c ≠ '.')
  match rest with
  | [] => (parseNatDigits ipart).map (fun i => ⟨i, 1⟩)
  | _ :: frac =>
    (parseNatDigits ipart).bind fun i =>
      (if frac.isEmpty then some 0 else parseNatDigits frac).map fun f =>
        ⟨i * 10 ^ frac.length + f, 10 ^ frac.length⟩

/-- Model of CPython `float(s)` on the decimal strings this program feeds
it: sign from a leading minus, magnitude the nearest double to the exact
decimal value.  Malformed input (a `ValueError` in Python) is `none`. -/
def pyFloatOfChars (cs : List Char) : Option PyFloat :=
  match cs with
  | [] => none
  | c :: rest =>
    if c = '-' then (parseMag rest).map (fun m => ⟨true, nearestDouble m⟩)
    else (parseMag cs).map (fun m => ⟨false, nearestDouble m⟩)

/-- `float(s)` on a `String`. -/
def pyFloatOfString (s : String) : Option PyFloat :=
  pyFloatOfChars s.data

/-! ### System security math (src/jumpbot.py lines 233-275)

`truesec` is the table parsed from `data/truesec.csv`: system name to the
true-security decimal text.  A missing key raises `KeyError` in Python and is
`none` here. -/

/-- The truesec table: system name to high-precision decimal text. -/
abbrev TruesecTable := List (String × String)

/-- `get_sign(x)`: the value of `copysign(1, x)`, `1` or `-1` by the sign
bit (so `-0.0` yields `-1`). -/
def get_sign (x : PyFloat) : Int :=
  if x.neg then -1 else 1

/-- The string-level core of `get_rounded_sec`: take the first five
characters of the truesec text (`str(truesec[star])[0:5]` — for `"0.45231"`
this keeps three fractional digits, for `"-0.10000"` two), then
`round(float(truncated), 1)`. -/
def rounded_sec_of_text (ts : String) : Option PyFloat :=
  (pyFloatOfChars (ts.data.take 5)).map pyRound1

/-- `get_rounded_sec(star)`: look up the truesec text and truncate-then-round
as above. -/
def get_rounded_sec (truesec : TruesecTable) (star : String) : Option PyFloat :=
  (truesec.lookup star).bind rounded_sec_of_text

/-- `get_sec_status(rounded_sec)`: `'nullsec'` when the sign is negative
(including `-0.0`), `'hisec'` when the value is at least `0.5`, else
`'lowsec'`. -/
def get_sec_status (rounded_sec : PyFloat) : String :=
  if get_sign rounded_sec = -1 then "nullsec"
  else if fracLeVal ⟨1, 2⟩ rounded_sec then "hisec"
  else "lowsec"

/-- Per-classification hop counts, as tallied by `jump_path_security`. -/
structure SecTally where
  hisec : Nat
  lowsec : Nat
  nullsec : Nat
  deriving DecidableEq, Repr

/-- The tallying loop of `jump_path_security` over the transit nodes. -/
def tallyGo (truesec : TruesecTable) : List String → SecTally → Option SecTally
  | [], acc => some acc
  | n :: rest, acc =>
    match get_rounded_sec truesec n with
    | none => none
    | some node_sec =>
      if get_sign node_sec = -1 then
        tallyGo truesec rest { acc with nullsec := acc.nullsec + 1 }
      else if fracLeVal ⟨1, 2⟩ node_sec then
        tallyGo truesec rest { acc with hisec := acc.hisec + 1 }
      else
        tallyGo truesec rest { acc with lowsec := acc.lowsec + 1 }

/-- `jump_path_security(path)`: classify every node after the start node and
count per category. -/
def jump_path_security (truesec : TruesecTable) (nodes : List String) :
    Option SecTally :=
  tallyGo truesec (nodes.drop 1) ⟨0, 0, 0⟩

/-- `lowsec_only(path)`: `True` iff every node of the path (the start node
included) classifies as `'lowsec'`; the Python loop returns `False` at the
first offender and raises on a missing truesec entry (`none` here). -/
def lowsec_only (truesec : TruesecTable) : List String → Option Bool
  | [] => some true
  | n :: rest =>
    match get_rounded_sec truesec n with
    | none => none
    | some node_sec =>
      if get_sec_status node_sec ≠ "lowsec" then some false
      else lowsec_only truesec rest

/-! ### The domain of truesec texts

`data/truesec.csv` stores each system's true security as decimal text with
one integer digit, five fractional digits and an optional leading minus
(`"0.45231"`, `"-0.10000"`); true security lies in `[-1.0, 1.0]`, so the
integer digit is `0` or `1`. -/

/-- A well-formed truesec decimal text, by digits. -/
structure Truesec where
  neg : Bool
  ip : Fin 2
  f1 : Fin 10
  f2 : Fin 10
  f3 : Fin 10
  f4 : Fin 10
  f5 : Fin 10

/-- ASCII digit character of a digit value. -/
def dc (d : Nat) : Char := Char.ofNat (48 + d)

/-- The decimal text of a `Truesec`. -/
def Truesec.render (t : Truesec) : String :=
  ⟨(if t.neg then ['-'] else []) ++
    [dc t.ip, '.', dc t.f1, dc t.f2, dc t.f3, dc t.f4, dc t.f5]⟩

/-! ### The specification's classification procedure (spec section 4.1)

Stated from the spec's words, for comparison with the code: truncate the
decimal text to exactly two fractional digits, round that value to one
decimal using round-half-away-from-zero, then classify by the rounded
value's sign (negative sign means hazardous — per the spec's sign-based
wording the sign of the original value is preserved through rounding, so a
negative value rounding to magnitude zero is still negative-signed) and the
0.5 threshold. -/

/-- Spec step 1+2: hundredths after two-digit truncation, then tenths after
round-half-away-from-zero (on the magnitude; the sign is carried
separately). -/
def spec_rounded_tenths (t : Truesec) : Nat :=
  let hundredths := 100 * t.ip.val + 10 * t.f1.val + t.f2.val
  hundredths / 10 + (if 5 ≤ hundredths % 10 then 1 else 0)

/-- Spec step 3: hazardous (`"nullsec"`) when the rounded value's sign is
negative, safe (`"hisec"`) when it is at least 0.5, else marginal
(`"lowsec"`). -/
def spec_sec_class (t : Truesec) : String :=
  if t.neg then "nullsec"
  else if fracLe ⟨1, 2⟩ ⟨spec_rounded_tenths t, 10⟩ then "hisec"
  else "lowsec"

/-! ### Data model and graph builders (src/jumpbot.py lines 46-141)

`parse_star_csv` produces a dict from system name to region, constellation,
security and edge list; only the name, region and edges take part in the
verified operations. -/

/-- A star system record from `data/stars.csv` (the float `security` column
is unused by the engine, which classifies from the separate truesec table). -/
structure Star where
  region : String
  constellation : String
  edges : List String
  deriving Repr

/-- The star catalog (a Python dict in insertion order). -/
abbrev Catalog := List (String × Star)

/-- A weighted adjacency structure, as built by `dijkstar.Graph.add_edge`:
node to ordered association list of (neighbor, cost). -/
abbrev Graph := List (String × List (String × Nat))

/-- Dict write `adj[v] = w`: replace in place if present, else append. -/
def updateAssoc : List (String × Nat) → String → Nat → List (String × Nat)
  | [], v, w => [(v, w)]
  | (k, x) :: rest, v, w =>
    if k = v then (v, w) :: rest else (k, x) :: updateAssoc rest v w

/-- `graph.add_edge(u, v, w)`. -/
def add_edge (g : Graph) (u v : String) (w : Nat) : Graph :=
  match g with
  | [] => [(u, [(v, w)])]
  | (k, adj) :: rest =>
    if k = u then (u, updateAssoc adj v w) :: rest
    else (k, adj) :: add_edge rest u v w

/-- `generate_graph(stars)`: every listed edge with cost 1. -/
def generate_graph (stars : Catalog) : Graph :=
  stars.foldl (fun g p => p.2.edges.foldl (fun g e => add_edge g p.1 e 1) g) []

/-- `generate_safe_graph(stars)`: an edge into a nullsec-classified node
costs 10000, any other edge costs 1.  Classification looks up the edge
target's truesec (`none` models the `KeyError` at build time). -/
def generate_safe_graph (stars : Catalog) (truesec : TruesecTable) :
    Option Graph :=
  stars.foldlM
    (fun g p =>
      p.2.edges.foldlM
        (fun g e =>
          (get_rounded_sec truesec e).map fun edge_sec =>
            add_edge g p.1 e
              (if get_sec_status edge_sec = "nullsec" then 10000 else 1))
        g)
    []

/-- `generate_lowsec_graph(stars)`: an edge into a lowsec-classified node
costs 1, any other edge costs 10000. -/
def generate_lowsec_graph (stars : Catalog) (truesec : TruesecTable) :
    Option Graph :=
  stars.foldlM
    (fun g p =>
      p.2.edges.foldlM
        (fun g e =>
          (get_rounded_sec truesec e).map fun edge_sec =>
            add_edge g p.1 e
              (if get_sec_status edge_sec = "lowsec" then 1 else 10000))
        g)
    []

/-- The ordered neighbor list of `u` in a graph. -/
def succs (g : Graph) (u : String) : List String :=
  ((g.lookup u).getD []).map Prod.fst

/-- The stored cost of the edge `u → v`, when present. -/
def lookupW (g : Graph) (u v : String) : Option Nat :=
  (g.lookup u).bind (fun adj => adj.lookup v)

/-- Total cost of a node sequence: the sum of the stored costs of its
consecutive edges (every edge of an enumerated path is present in the
graph; absent edges contribute 0 and never arise below). -/
def pathCost (g : Graph) : List String → Nat
  | a :: b :: rest => (lookupW g a b).getD 0 + pathCost g (b :: rest)
  | _ => 0

/-- All simple paths from `u` to `t` avoiding `visited`, each of at most
`fuel + 1` nodes, in depth-first order over the stored adjacency order. -/
def simplePathsAux (adj : String → List String) (t : String) :
    Nat → List String → String → List (List String)
  | 0, _, u => if u = t then [[u]] else []
  | fuel + 1, visited, u =>
    if u = t then [[u]]
    else
      ((adj u).filter (fun v => v ∉ u :: visited)).flatMap fun v =>
        (simplePathsAux adj t fuel (u :: visited) v).map fun p => u :: p

/-- Fuel bounding any simple path in `g`: one more than the total number of
stored adjacency entries. -/
def pathFuel (g : Graph) : Nat := (g.map (fun p => p.2.length)).sum + 1

/-- All simple paths from `s` to `t` in `g`. -/
def simplePaths (g : Graph) (s t : String) : List (List String) :=
  simplePathsAux (succs g) t (pathFuel g) [] s

/-- First minimizer of `f` in a list (deterministic tie-break by order). -/
def argminBy {α : Type} (f : α → Nat) : List α → Option α
  | [] => none
  | x :: xs =>
    some (xs.foldl (fun best y => if f y < f best then y else best) x)

/-- Modelled from the spec: `dijkstar.find_path` (an external library, not
part of this repository) runs Dijkstra's single-source shortest path over
the weighted graph, returning a minimum-cost path with deterministic
tie-breaking by traversal order, and raises `NoPathError` when the target
is unreachable (`none` here).  With the positive edge costs used by this
program a minimum-cost walk may be taken simple, so the model returns the
first minimum-cost simple path of a deterministic enumeration together
with its total cost. -/
def find_path (g : Graph) (s t : String) : Option (List String × Nat) :=
  (argminBy (pathCost g) (simplePaths g s t)).map fun p => (p, pathCost g p)

/-- The result of `jump_path`: the path's nodes and total cost (dijkstar's
`PathInfo`) plus the `jump_path_security` tally. -/
structure JumpRes where
  nodes : List String
  total_cost : Nat
  security : SecTally
  deriving DecidableEq, Repr

/-- `jump_path(start, end, strategy)`: pick the graph by strategy (an
unknown strategy leaves `g` unbound, a `NameError` in Python), run
`find_path`, and tally the path's security. -/
def jump_path (graph safe_graph lowsec_graph : Graph) (truesec : TruesecTable)
    (start end_ : String) (strategy : String) : Option JumpRes :=
  let gOpt : Option Graph :=
    if strategy = "shortest" then some graph
    else if strategy = "avoid_null" then some safe_graph
    else if strategy = "lowsec" then some lowsec_graph
    else none
  gOpt.bind fun g =>
    (find_path g start end_).bind fun pc =>
      (jump_path_security truesec pc.1).map fun sec => ⟨pc.1, pc.2, sec⟩

/-- `jump_count(path)`: number of edges, `len(nodes) - 1`. -/
def jump_count (path : JumpRes) : Nat := path.nodes.length - 1

/-! ### Nearest-feature breadth-first searches (src/jumpbot.py lines 164-229)

Each search keeps a FIFO queue of paths and a visited list; a dequeued
node's neighbors are enqueued and tested in stored adjacency order.  The
loops terminate (the queue drains once every node is visited), so a fuel
parameter bounds the iteration count without changing the semantics for
sufficient fuel; fuel exhaustion returns the found list like a normal loop
exit.  `none` models a Python exception (`stars[node]` on an unknown node,
or `path[-1]` on an empty path — the latter never occurs). -/

/-- The `itcs` table (the planet/moon/station columns play no part in the
search; only key membership is tested). -/
abbrev ItcTable := List (String × String)

/-- The `stations` table: system name to NPC station count. -/
abbrev StationTable := List (String × Nat)

/-- Loop of `closest_safe_systems`: every neighbor of a newly visited node
is enqueued, and appended to the found list whenever it classifies as not
nullsec — with no duplicate check, no start-node check and no truncation. -/
def closestSafeLoop (stars : Catalog) (truesec : TruesecTable) (count : Nat) :
    Nat → List (List String) → List String → List String → Option (List String)
  | 0, _, _, found => some found
  | _ + 1, [], _, found => some found
  | fuel + 1, path :: rest, visited, found =>
    if count ≤ found.length then some found
    else
        match path.getLast? with
        | none => none
        | some node =>
          if node ∈ visited then
            closestSafeLoop stars truesec count fuel rest visited found
          else
            match stars.lookup node with
            | none => none
            | some star =>
              match
                star.edges.foldlM
                  (fun (acc : List (List String) × List String) neighbor =>
                    (get_rounded_sec truesec neighbor).map fun sec =>
                      (acc.1 ++ [path ++ [neighbor]],
                       if get_sec_status sec ≠ "nullsec" then acc.2 ++ [neighbor]
                       else acc.2))
                  ([], found)
              with
              | none => none
              | some (newPaths, found') =>
                closestSafeLoop stars truesec count fuel (rest ++ newPaths)
                  (visited ++ [node]) found'

/-- `closest_safe_systems(start, count)`. -/
def closest_safe_systems (stars : Catalog) (truesec : TruesecTable)
    (start : String) (count : Nat) (fuel : Nat) : Option (List String) :=
  closestSafeLoop stars truesec count fuel [[start]] [] []

/-- Loop of `closest_itcs`: appends a neighbor when it is not already found
and is an ITC — with no start-node check and no truncation. -/
def closestItcsLoop (stars : Catalog) (itcs : ItcTable) (count : Nat) :
    Nat → List (List String) → List String → List String → Option (List String)
  | 0, _, _, found => some found
  | _ + 1, [], _, found => some found
  | fuel + 1, path :: rest, visited, found =>
    if count ≤ found.length then some found
    else
        match path.getLast? with
        | none => none
        | some node =>
          if node ∈ visited then
            closestItcsLoop stars itcs count fuel rest visited found
          else
            match stars.lookup node with
            | none => none
            | some star =>
              let step :=
                star.edges.foldl
                  (fun (acc : List (List String) × List String) neighbor =>
                    (acc.1 ++ [path ++ [neighbor]],
                     if neighbor ∉ acc.2 ∧ (itcs.lookup neighbor).isSome then
                       acc.2 ++ [neighbor]
                     else acc.2))
                  ([], found)
              closestItcsLoop stars itcs count fuel (rest ++ step.1)
                (visited ++ [node]) step.2

/-- `closest_itcs(start, count)`. -/
def closest_itcs (stars : Catalog) (itcs : ItcTable) (start : String)
    (count : Nat) (fuel : Nat) : Option (List String) :=
  closestItcsLoop stars itcs count fuel [[start]] [] []

/-- Loop of `closest_stations`: appends a neighbor when it is not already
found, is a station system, and differs from the start node. -/
def closestStationsLoop (stars : Catalog) (stations : StationTable)
    (start : String) (count : Nat) :
    Nat → List (List String) → List String → List String → Option (List String)
  | 0, _, _, found => some found
  | _ + 1, [], _, found => some found
  | fuel + 1, path :: rest, visited, found =>
    if count ≤ found.length then some found
    else
        match path.getLast? with
        | none => none
        | some node =>
          if node ∈ visited then
            closestStationsLoop stars stations start count fuel rest visited found
          else
            match stars.lookup node with
            | none => none
            | some star =>
              let step :=
                star.edges.foldl
                  (fun (acc : List (List String) × List String) neighbor =>
                    (acc.1 ++ [path ++ [neighbor]],
                     if neighbor ∉ acc.2 ∧ (stations.lookup neighbor).isSome then
                       if neighbor ≠ start then acc.2 ++ [neighbor] else acc.2
                     else acc.2))
                  ([], found)
              closestStationsLoop stars stations start count fuel (rest ++ step.1)
                (visited ++ [node]) step.2

/-- `closest_stations(start, count)`: the loop's result truncated to
`count` entries (`found_stations[:count]`). -/
def closest_stations (stars : Catalog) (stations : StationTable)
    (start : String) (count : Nat) (fuel : Nat) : Option (List String) :=
  (closestStationsLoop stars stations start count fuel [[start]] [] []).map
    fun found => found.take count

/-! ### Name resolution (src/jumpbot.py lines 280-349, 398-418)

The three module-level memo dicts (`system_fixups`, `valid_systems`,
`fuzzy_matches`) are threaded as explicit state.  Dict insertion for a key
not yet present is modeled by prepending (nothing iterates these tables; a
new key is only ever read back through `lookup`).  `system_fixups` values
are `String` because the only write (line 334) stores the flat-lookup hit —
the not-found branch returns `False` without writing. -/

/-- One character of `flatten`: lower-case, then `'0' → 'o'`. -/
def flattenChar (c : Char) : Char :=
  let lc := c.toLower
  if lc = '0' then 'o' else lc

/-- `flatten(system)`: `system.lower().replace('0', 'o')`. -/
def flatten (system : String) : String :=
  ⟨system.data.map flattenChar⟩

/-- Python `s.lower()` (the names involved are ASCII). -/
def strLower (s : String) : String :=
  ⟨s.data.map Char.toLower⟩

/-- Python slice `s[0:n]`. -/
def strTake (s : String) (n : Nat) : String :=
  ⟨s.data.take n⟩

/-- Python slice `s[n:]`. -/
def strDrop (s : String) (n : Nat) : String :=
  ⟨s.data.drop n⟩

/-- Dict write `d[k] = v` for the flat lookup (keys can collide when two
names flatten equally; a later write overwrites in place like a dict). -/
def upsert (l : List (String × String)) (k v : String) :
    List (String × String) :=
  if l.any (fun p => p.1 = k) then
    l.map (fun p => if p.1 = k then (k, v) else p)
  else l ++ [(k, v)]

/-- `generate_flat_lookup(stars)`: flattened name to canonical name. -/
def generate_flat_lookup (stars : Catalog) : List (String × String) :=
  stars.foldl (fun acc p => upsert acc (flatten p.1) p.1) []

/-- The three resolver memo tables. -/
structure ResolverState where
  system_fixups : List (String × String)
  valid_systems : List String
  fuzzy_matches : List (String × List String)
  deriving DecidableEq, Repr

/-- `fixup_system_name(system)`: memo hit, else the exact catalog name,
else the flat lookup (cached on success), else `False` (`none`) — the
not-found outcome is not cached. -/
def fixup_system_name (stars : Catalog) (flat_lookup : List (String × String))
    (st : ResolverState) (system : String) : Option String × ResolverState :=
  match st.system_fixups.lookup system with
  | some v => (some v, st)
  | none =>
    if (stars.lookup system).isSome then (some system, st)
    else
      match flat_lookup.lookup (flatten system) with
      | some lookup =>
        (some lookup,
         { st with system_fixups := (system, lookup) :: st.system_fixups })
      | none => (none, st)

/-- `is_valid_system(system)`: memoized boolean of `fixup_system_name`. -/
def is_valid_system (stars : Catalog) (flat_lookup : List (String × String))
    (st : ResolverState) (system : String) : Bool × ResolverState :=
  if system ∈ st.valid_systems then (true, st)
  else
    match fixup_system_name stars flat_lookup st system with
    | (some _, st1) =>
      (true, { st1 with valid_systems := system :: st1.valid_systems })
    | (none, st1) => (false, st1)

/-- The candidate scan of `try_fuzzy_match`: canonical names whose
flattened form's prefix of the token's length equals the flattened token
(the scan iterates the flat-lookup keys and appends the stored values in
table order). -/
def fresh_candidates (flat_lookup : List (String × String)) (system : String) :
    List String :=
  flat_lookup.filterMap fun p =>
    if strLower (strTake p.1 system.length) = flatten system then some p.2
    else none

/-- `try_fuzzy_match(system)`: `False` (`none`) for tokens shorter than 2;
memo hit; else the fresh candidate scan, cached only when nonempty (the
empty list is returned uncached). -/
def try_fuzzy_match (flat_lookup : List (String × String))
    (st : ResolverState) (system : String) :
    Option (List String) × ResolverState :=
  if system.length < 2 then (none, st)
  else
    match st.fuzzy_matches.lookup system with
    | some cached => (some cached, st)
    | none =>
      let candidates := fresh_candidates flat_lookup system
      if candidates.isEmpty then (some candidates, st)
      else
        (some candidates,
         { st with fuzzy_matches := (system, candidates) :: st.fuzzy_matches })

/-- `merge_fuzzy(submission, completion)`:
`submission[:len(submission)] + completion[len(submission):]`. -/
def merge_fuzzy (submission completion : String) : String :=
  strTake submission submission.length ++ strDrop completion submission.length

/-- `check_oh_mixup(system)`: did resolution change the lower-cased text?
Calls `fixup_system_name(system).lower()`, so an unresolvable argument is
an `AttributeError` on `False` (`none`). -/
def check_oh_mixup (stars : Catalog) (flat_lookup : List (String × String))
    (st : ResolverState) (system : String) :
    Option (Bool × ResolverState) :=
  match fixup_system_name stars flat_lookup st system with
  | (none, _) => none
  | (some fixed, st1) => some (strLower system != strLower fixed, st1)

/-- The warnings `format_system` can emit, as tagged values (the source
renders each through a `format_*` string builder; the rendered text is
presentation).  `ohMixup` carries what the user typed and the resolved
name — the source formats `merge_fuzzy(system, guessed_system) if
guessed_system else system`, and `guessed_system` is never reassigned from
`False`, so the provided text is always the raw token. -/
inductive Warning where
  | ambiguous (cands : List String)
  | unknown (provided : String)
  | ohMixup (provided : String) (corrected : Option String)
  deriving DecidableEq, Repr

/-- Is this an O/0-mixup warning? -/
def Warning.isOhMixup : Warning → Bool
  | .ohMixup _ _ => true
  | _ => false

/-- Is this an unknown-system warning? -/
def Warning.isUnknown : Warning → Bool
  | .unknown _ => true
  | _ => false

/-- Is this an ambiguous-match warning? -/
def Warning.isAmbiguous : Warning → Bool
  | .ambiguous _ => true
  | _ => false

/-- `format_system(system)`: the canonical resolution algorithm — valid
(exact or flattened, possibly memoized) wins outright; else a unique fuzzy
candidate is accepted (with a mixup check against the merged guess); two or
more candidates yield an ambiguous warning; zero an unknown warning; an
O/0-mixup warning is appended when detected. -/
def format_system (stars : Catalog) (flat_lookup : List (String × String))
    (st : ResolverState) (system : String) :
    Option ((Option String × List Warning) × ResolverState) :=
  match is_valid_system stars flat_lookup st system with
  | (true, st1) =>
    match fixup_system_name stars flat_lookup st1 system with
    | (canonical_system, st2) =>
      match check_oh_mixup stars flat_lookup st2 system with
      | none => none
      | some (oh_mixup, st3) =>
        some ((canonical_system,
               if oh_mixup then [Warning.ohMixup system canonical_system]
               else []), st3)
  | (false, st1) =>
    match try_fuzzy_match flat_lookup st1 system with
    | (none, st2) => some ((none, [Warning.unknown system]), st2)
    | (some [], st2) => some ((none, [Warning.unknown system]), st2)
    | (some [f0], st2) =>
      match fixup_system_name stars flat_lookup st2 f0 with
      | (canonical_system, st3) =>
        match check_oh_mixup stars flat_lookup st3 (merge_fuzzy system f0) with
        | none => none
        | some (oh_mixup, st4) =>
          some ((canonical_system,
                 if oh_mixup then [Warning.ohMixup system canonical_system]
                 else []), st4)
    | (some fuzzy, st2) => some ((none, [Warning.ambiguous fuzzy]), st2)

/-! ### End-to-end and multi-stop calculation (src/jumpbot.py lines 516-634)

`calc_e2e` and `calc_multistop` build Discord reply strings; their
route-determining control flow is modeled structurally, with the rendered
text (regions, emoji, the hop-by-hop listing and the per-leg `calc_e2e`
strings, which recompute the same deterministic `jump_path` values) left to
the presentation layer.  `none` models an uncaught Python exception. -/

/-- The route-level outcome of `calc_e2e`. -/
inductive E2EOutcome where
  | unresolved (warnings : List Warning)
  | same
  | noLowsecPath (cs ce : String)
  | route (warnings : List Warning) (nodes : List String) (jumps : Nat)
      (security : SecTally)
  deriving DecidableEq, Repr

/-- `calc_e2e(start, end, strategy)`: resolve both tokens (returning the
warnings when one fails), return nothing for a degenerate pair, and for the
`'lowsec'` strategy post-validate the lowsec-graph path with `lowsec_only`
before reporting it (lines 541-545); the `'avoid_null'` and `'lowsec'`
branches additionally compute the shortest path for their comparison
footers.  `format_jump_count` recomputes `jump_path(start, end, 'lowsec')`
for the reported route; being a pure function it returns the same value,
which the model reuses. -/
def calc_e2e (stars : Catalog) (flat_lookup : List (String × String))
    (truesec : TruesecTable) (graph safe_graph lowsec_graph : Graph)
    (st : ResolverState) (start end_ : String) (strategy : String) :
    Option (E2EOutcome × ResolverState) :=
  match format_system stars flat_lookup st start with
  | none => none
  | some ((none, w1), st1) => some (.unresolved w1, st1)
  | some ((some canonical_start, w1), st1) =>
    match format_system stars flat_lookup st1 end_ with
    | none => none
    | some ((none, w2), st2) => some (.unresolved w2, st2)
    | some ((some canonical_end, w2), st2) =>
      if canonical_start = canonical_end then some (.same, st2)
      else if strategy = "lowsec" then
        match jump_path graph safe_graph lowsec_graph truesec
            canonical_start canonical_end "lowsec" with
        | none => none
        | some lowsec_path =>
          match lowsec_only truesec lowsec_path.nodes with
          | none => none
          | some false => some (.noLowsecPath canonical_start canonical_end, st2)
          | some true =>
            match jump_path graph safe_graph lowsec_graph truesec
                canonical_start canonical_end "shortest" with
            | none => none
            | some _shortest =>
              some (.route (w1 ++ w2) lowsec_path.nodes (jump_count lowsec_path)
                lowsec_path.security, st2)
      else
        match jump_path graph safe_graph lowsec_graph truesec
            canonical_start canonical_end strategy with
        | none => none
        | some p =>
          if strategy = "avoid_null" then
            match jump_path graph safe_graph lowsec_graph truesec
                canonical_start canonical_end "shortest" with
            | none => none
            | some _unsafe =>
              some (.route (w1 ++ w2) p.nodes (jump_count p) p.security, st2)
          else some (.route (w1 ++ w2) p.nodes (jump_count p) p.security, st2)

/-- The punctuation characters stripped from stop tokens
(`punctuation_to_strip = '[.,;:!\x27"]'`). -/
def puncStripChars : List Char := ['.', ',', ';', ':', '!', '\'', '"']

/-- `punc_strip(word)` / `re_sub(punctuation_to_strip, '', s)`. -/
def punc_strip (word : String) : String :=
  ⟨word.data.filter (fun c => c ∉ puncStripChars)⟩

/-- The stop-resolution loop of `calc_multistop`: strip punctuation,
resolve each stop, collect all warnings and the successfully resolved
canonical stops in order. -/
def resolveStopsGo (stars : Catalog) (flat_lookup : List (String × String)) :
    List String → ResolverState → List String → List Warning →
    Option (List String × List Warning × ResolverState)
  | [], st, acc, ws => some (acc, ws, st)
  | s :: rest, st, acc, ws =>
    match format_system stars flat_lookup st (punc_strip s) with
    | none => none
    | some ((cOpt, w), st') =>
      resolveStopsGo stars flat_lookup rest st'
        (acc ++ (match cOpt with | some c => [c] | none => []))
        (ws ++ w)

/-- The structured outcome of a successful `calc_multistop`. -/
structure MultistopRes where
  valid_stops : List String
  legs : List (String × String)
  jump_total : Nat
  nullsec_total : Nat
  warnings : List Warning
  deriving DecidableEq, Repr

/-- `calc_multistop(stops, strategy)`: resolve every stop, return `None`
(the inner `none`) when fewer than two resolve, build consecutive legs
dropping degenerate ones (`leg[0] and leg[1] and leg[0] != leg[1]`), and
accumulate each leg's jump count and nullsec tally over `jump_path`. -/
def calc_multistop (stars : Catalog) (flat_lookup : List (String × String))
    (truesec : TruesecTable) (graph safe_graph lowsec_graph : Graph)
    (st : ResolverState) (stops : List String) (strategy : String) :
    Option (Option MultistopRes × ResolverState) :=
  match resolveStopsGo stars flat_lookup stops st [] [] with
  | none => none
  | some (valid_stops, warnings, st1) =>
    if valid_stops.length < 2 then some (none, st1)
    else
      let candidate_legs := valid_stops.zip valid_stops.tail
      let legs := candidate_legs.filter fun l =>
        l.1 != "" && l.2 != "" && l.1 != l.2
      match
        legs.foldlM
          (fun (acc : Nat × Nat) leg =>
            (jump_path graph safe_graph lowsec_graph truesec leg.1 leg.2
                strategy).map
              fun p => (acc.1 + jump_count p, acc.2 + p.security.nullsec))
          (0, 0)
      with
      | none => none
      | some totals =>
        some (some ⟨valid_stops, legs, totals.1, totals.2, warnings⟩, st1)

/-- Modelled from the spec: the unweighted breadth-first-search hop
distance between `A` and `B` — the fewest edges of any path between them
(what BFS computes), over the same deterministic path enumeration the
routing model uses. -/
def bfs_hop_distance (g : Graph) (s t : String) : Option Nat :=
  ((simplePaths g s t).map (fun p => p.length - 1)).min?

/-! ### Property-level definitions used by the verification -/

/-- Dict-key update: the key list of `updateAssoc` (replace keeps position,
a new key is appended). -/
def updateKeys (ks : List String) (v : String) : List String :=
  match ks with
  | [] => [v]
  | k :: rest => if k = v then v :: rest else k :: updateKeys rest v

/-- The key structure of a weighted graph: nodes with their neighbor lists,
weights forgotten. -/
def keyShape (g : Graph) : List (String × List String) :=
  g.map (fun p => (p.1, p.2.map Prod.fst))

/-- `add_edge` on key shapes. -/
def shapeAddEdge (s : List (String × List String)) (u v : String) :
    List (String × List String) :=
  match s with
  | [] => [(u, [v])]
  | (k, ks) :: rest =>
    if k = u then (u, updateKeys ks v) :: rest else (k, ks) :: shapeAddEdge rest u v

/-- Every consecutive pair of the node sequence is an edge of the adjacency. -/
def chainOk (adj : String → List String) : List String → Prop
  | a :: b :: rest => b ∈ adj a ∧ chainOk adj (b :: rest)
  | _ => True

/-- Every stored edge `(u, v, w)` of the graph satisfies `P`. -/
def GraphAll (g : Graph) (P : String → String → Nat → Prop) : Prop :=
  ∀ u adj, (u, adj) ∈ g → ∀ v w, (v, w) ∈ adj → P u v w

/-! ### Concrete fixtures used by witnesses and counterexamples -/

/-- Truesec texts at the three boundary values of spec section 8. -/
def c6_table : TruesecTable :=
  [("A", "0.45000"), ("B", "0.44999"), ("C", "-0.10000")]

/-- A four-node diamond S-A-C, S-B-C (symmetric, no self-loops), all
lowsec-classified: exercises the nearest-safe-system search. -/
def cx4_stars : Catalog :=
  [("S", ⟨"R", "K", ["A", "B"]⟩), ("A", ⟨"R", "K", ["S", "C"]⟩),
   ("B", ⟨"R", "K", ["S", "C"]⟩), ("C", ⟨"R", "K", ["A", "B"]⟩)]

/-- All four diamond nodes at true security 0.3 (lowsec). -/
def cx4_truesec : TruesecTable :=
  [("S", "0.30000"), ("A", "0.30000"), ("B", "0.30000"), ("C", "0.30000")]

/-- A star around A: S, B and C each link only to A (symmetric). -/
def ci4_stars : Catalog :=
  [("S", ⟨"R", "K", ["A"]⟩), ("A", ⟨"R", "K", ["S", "B", "C"]⟩),
   ("B", ⟨"R", "K", ["A"]⟩), ("C", ⟨"R", "K", ["A"]⟩)]

/-- S, B and C are trade hubs. -/
def ci4_itcs : ItcTable := [("S", ""), ("B", ""), ("C", "")]

/-- A three-node chain A - B - C (symmetric adjacency). -/
def wStars : Catalog :=
  [("A", ⟨"R", "K", ["B"]⟩), ("B", ⟨"R", "K", ["A", "C"]⟩), ("C", ⟨"R", "K", ["B"]⟩)]

/-- All chain nodes at true security 0.3 (lowsec). -/
def wTruesec : TruesecTable :=
  [("A", "0.30000"), ("B", "0.30000"), ("C", "0.30000")]



/-- The canonicalization outcome of `fixup_system_name` with the memo
stripped away: the exact catalog name, else the flat lookup. -/
def fixup_pure (stars : Catalog) (flat_lookup : List (String × String))
    (system : String) : Option String :=
  if (stars.lookup system).isSome then some system
  else flat_lookup.lookup (flatten system)

/-- Reachable resolver states: every memo entry agrees with what a fresh
computation against `stars` and its flat lookup would produce. -/
def StInv (stars : Catalog) (st : ResolverState) : Prop :=
  (∀ k v, st.system_fixups.lookup k = some v →
      stars.lookup k = none ∧
      (generate_flat_lookup stars).lookup (flatten k) = some v) ∧
  (∀ tok ∈ st.valid_systems,
      (fixup_pure stars (generate_flat_lookup stars) tok).isSome = true) ∧
  (∀ k l, st.fuzzy_matches.lookup k = some l →
      l = fresh_candidates (generate_flat_lookup stars) k ∧ l ≠ [])

/-- A small catalog for exercising the resolver: two canonical names,
used by the C7 and C10 witnesses. -/
def jStars : Catalog :=
  [("Jita", ⟨"R", "K", []⟩), ("Amarr", ⟨"R", "K", []⟩)]

/-! ## Theorems -/

/-! ### Classifier lemmas -/

theorem digitVal_dc : ∀ d : Fin 10, digitVal (dc d.val) = some d.val := by decide

theorem dc_dot_false (d : Fin 10) : (dc d.val = '.') = False := by
  simp only [eq_iff_iff, iff_false]
  revert d; decide

theorem render_data_pos (ip : Fin 2) (f1 f2 f3 f4 f5 : Fin 10) :
    (Truesec.render ⟨false, ip, f1, f2, f3, f4, f5⟩).data =
      [dc ip.val, '.', dc f1.val, dc f2.val, dc f3.val, dc f4.val, dc f5.val] := rfl

theorem render_data_neg (ip : Fin 2) (f1 f2 f3 f4 f5 : Fin 10) :
    (Truesec.render ⟨true, ip, f1, f2, f3, f4, f5⟩).data =
      ['-', dc ip.val, '.', dc f1.val, dc f2.val, dc f3.val, dc f4.val, dc f5.val] := rfl

theorem parseMag_pos : ∀ (ip : Fin 2) (f1 f2 f3 : Fin 10),
    parseMag [dc ip.val, '.', dc f1.val, dc f2.val, dc f3.val] =
      some ⟨ip.val * 1000 + (100 * f1.val + 10 * f2.val + f3.val), 1000⟩ := by decide

theorem parseMag_neg : ∀ (ip : Fin 2) (f1 f2 : Fin 10),
    parseMag [dc ip.val, '.', dc f1.val, dc f2.val] =
      some ⟨ip.val * 100 + (10 * f1.val + f2.val), 100⟩ := by decide

theorem pyFloat_trunc_pos (ip : Fin 2) (f1 f2 f3 : Fin 10) :
    pyFloatOfChars [dc ip.val, '.', dc f1.val, dc f2.val, dc f3.val] =
      some ⟨false, nearestDouble
        ⟨ip.val * 1000 + (100 * f1.val + 10 * f2.val + f3.val), 1000⟩⟩ := by
  have hm : (dc ip.val = '-') = False := by
    simp only [eq_iff_iff, iff_false]; revert ip; decide
  simp [pyFloatOfChars, hm, parseMag_pos]

theorem pyFloat_trunc_neg (ip : Fin 2) (f1 f2 : Fin 10) :
    pyFloatOfChars ['-', dc ip.val, '.', dc f1.val, dc f2.val] =
      some ⟨true, nearestDouble ⟨ip.val * 100 + (10 * f1.val + f2.val), 100⟩⟩ := by
  simp [pyFloatOfChars, parseMag_neg]

set_option maxRecDepth 100000 in
set_option maxHeartbeats 4000000 in
theorem pos_round_class : ∀ (ip : Fin 2) (f1 f2 f3 : Fin 10),
    get_sec_status (pyRound1 ⟨false,
        nearestDouble ⟨ip.val * 1000 + (100 * f1.val + 10 * f2.val + f3.val), 1000⟩⟩) =
      (if 5 ≤ 10 * ip.val + f1.val + (if 5 ≤ f2.val then 1 else 0) then "hisec"
       else "lowsec") := by decide

theorem neg_class (m : Frac) : get_sec_status (pyRound1 ⟨true, m⟩) = "nullsec" := by
  simp [get_sec_status, pyRound1, get_sign]

theorem spec_tenths_eq (t : Truesec) :
    spec_rounded_tenths t =
      10 * t.ip.val + t.f1.val + (if 5 ≤ t.f2.val then 1 else 0) := by
  have h1 := t.f1.isLt
  have h2 := t.f2.isLt
  simp only [spec_rounded_tenths]
  have hmod : (100 * t.ip.val + 10 * t.f1.val + t.f2.val) % 10 = t.f2.val := by omega
  have hdiv : (100 * t.ip.val + 10 * t.f1.val + t.f2.val) / 10 =
      10 * t.ip.val + t.f1.val := by omega
  rw [hmod, hdiv]

theorem spec_class_pos (t : Truesec) (h : t.neg = false) :
    spec_sec_class t =
      (if 5 ≤ 10 * t.ip.val + t.f1.val + (if 5 ≤ t.f2.val then 1 else 0) then "hisec"
       else "lowsec") := by
  rw [spec_sec_class, h, spec_tenths_eq]
  have : fracLe ⟨1, 2⟩ ⟨10 * t.ip.val + t.f1.val + (if 5 ≤ t.f2.val then 1 else 0), 10⟩ =
      decide (5 ≤ 10 * t.ip.val + t.f1.val + (if 5 ≤ t.f2.val then 1 else 0)) := by
    rw [fracLe]
    dsimp only
    exact decide_eq_decide.mpr (by omega)
  simp only [Bool.false_eq_true, if_false, this, decide_eq_true_eq]

theorem rounded_render_class (t : Truesec) :
    (rounded_sec_of_text t.render).map get_sec_status = some (spec_sec_class t) := by
  obtain ⟨neg, ip, f1, f2, f3, f4, f5⟩ := t
  cases neg with
  | true =>
    rw [rounded_sec_of_text, render_data_neg]
    have htake : (['-', dc ip.val, '.', dc f1.val, dc f2.val, dc f3.val, dc f4.val,
        dc f5.val].take 5) = ['-', dc ip.val, '.', dc f1.val, dc f2.val] := rfl
    rw [htake, pyFloat_trunc_neg]
    rw [Option.map_some', Option.map_some', neg_class]
    rfl
  | false =>
    rw [rounded_sec_of_text, render_data_pos]
    have htake : ([dc ip.val, '.', dc f1.val, dc f2.val, dc f3.val, dc f4.val,
        dc f5.val].take 5) = [dc ip.val, '.', dc f1.val, dc f2.val, dc f3.val] := rfl
    rw [htake, pyFloat_trunc_pos]
    rw [Option.map_some', Option.map_some', pos_round_class,
      spec_class_pos ⟨false, ip, f1, f2, f3, f4, f5⟩ rfl]

/-! ### Claims C1, C6, C9 -/

/-- C1: for every node, the code's security classification (string-truncate
the truesec text, `round(float(.), 1)`, then sign / 0.5 test) agrees with
the specification's procedure: truncate the decimal text to exactly two
fractional digits, round half away from zero to one decimal, then classify
as hazardous on a negative sign, safe at or above 0.5, else marginal. -/
theorem claim_C1_classifier_matches_spec (t : Truesec) (truesec : TruesecTable)
    (star : String) (h : truesec.lookup star = some t.render) :
    (get_rounded_sec truesec star).map get_sec_status = some (spec_sec_class t) := by
  rw [get_rounded_sec, h]
  exact rounded_render_class t

/-- Witness for C1 at the truesec text `"0.45000"`. -/
theorem claim_C1_witness :
    (get_rounded_sec [("Jita", "0.45000")] "Jita").map get_sec_status =
      some (spec_sec_class ⟨false, 0, 4, 5, 0, 0, 0⟩) :=
  claim_C1_classifier_matches_spec ⟨false, 0, 4, 5, 0, 0, 0⟩
    [("Jita", "0.45000")] "Jita" (by decide)

/-- C6: classifying `"0.45000"` yields hisec, `"0.44999"` yields lowsec,
and `"-0.10000"` yields nullsec. -/
theorem claim_C6_boundary_classifications :
    (get_rounded_sec c6_table "A").map get_sec_status = some "hisec" ∧
    (get_rounded_sec c6_table "B").map get_sec_status = some "lowsec" ∧
    (get_rounded_sec c6_table "C").map get_sec_status = some "nullsec" := by
  decide

/-- C9: every truesec text with a leading minus classifies as nullsec: the
rounded value keeps the negative sign bit (negative zero when the magnitude
rounds to 0), `get_sign` (copysign) reports `-1` for it, and
`get_sec_status` therefore answers `'nullsec'`. -/
theorem claim_C9_negative_sign_is_nullsec (t : Truesec) (h : t.neg = true) :
    ∃ pf, rounded_sec_of_text t.render = some pf ∧ pf.neg = true ∧
      get_sign pf = -1 ∧ get_sec_status pf = "nullsec" := by
  obtain ⟨neg, ip, f1, f2, f3, f4, f5⟩ := t
  cases h
  refine ⟨pyRound1 ⟨true, nearestDouble ⟨ip.val * 100 + (10 * f1.val + f2.val), 100⟩⟩,
    ?_, rfl, rfl, neg_class _⟩
  rw [rounded_sec_of_text, render_data_neg]
  have htake : (['-', dc ip.val, '.', dc f1.val, dc f2.val, dc f3.val, dc f4.val,
      dc f5.val].take 5) = ['-', dc ip.val, '.', dc f1.val, dc f2.val] := rfl
  rw [htake, pyFloat_trunc_neg, Option.map_some']

/-- Witness for C9 at `"-0.04999"`, whose truncation `"-0.04"` rounds to
negative zero. -/
theorem claim_C9_witness :
    ∃ pf, rounded_sec_of_text (Truesec.render ⟨true, 0, 0, 4, 9, 9, 9⟩) = some pf ∧
      pf.neg = true ∧ get_sign pf = -1 ∧ get_sec_status pf = "nullsec" :=
  claim_C9_negative_sign_is_nullsec ⟨true, 0, 0, 4, 9, 9, 9⟩ rfl

/-! ### Claim C4 -/

theorem stations_fold_inv (stations : StationTable) (start : String)
    (edges : List String) (path : List String) :
    ∀ acc : List (List String) × List String, acc.2.Nodup → start ∉ acc.2 →
      (edges.foldl
        (fun (acc : List (List String) × List String) neighbor =>
          (acc.1 ++ [path ++ [neighbor]],
           if neighbor ∉ acc.2 ∧ (stations.lookup neighbor).isSome then
             if neighbor ≠ start then acc.2 ++ [neighbor] else acc.2
           else acc.2))
        acc).2.Nodup ∧
      start ∉ (edges.foldl
        (fun (acc : List (List String) × List String) neighbor =>
          (acc.1 ++ [path ++ [neighbor]],
           if neighbor ∉ acc.2 ∧ (stations.lookup neighbor).isSome then
             if neighbor ≠ start then acc.2 ++ [neighbor] else acc.2
           else acc.2))
        acc).2 := by
  induction edges with
  | nil => intro acc h1 h2; exact ⟨h1, h2⟩
  | cons e rest ih =>
    intro acc h1 h2
    simp only [List.foldl_cons]
    by_cases hc : e ∉ acc.2 ∧ (stations.lookup e).isSome
    · by_cases hs : e ≠ start
      · rw [if_pos hc, if_pos hs]
        apply ih
        · rw [List.nodup_append]
          exact ⟨h1, List.nodup_singleton e, by
            intro x hx hx'
            rw [List.mem_singleton] at hx'
            exact hc.1 (hx' ▸ hx)⟩
        · intro hmem
          rcases List.mem_append.mp hmem with h | h
          · exact h2 h
          · rw [List.mem_singleton] at h
            exact hs h.symm
      · rw [if_pos hc, if_neg hs]
        exact ih (acc.1 ++ [path ++ [e]], acc.2) h1 h2
    · rw [if_neg hc]
      exact ih (acc.1 ++ [path ++ [e]], acc.2) h1 h2

theorem stations_loop_inv (stars : Catalog) (stations : StationTable)
    (start : String) (count : Nat) :
    ∀ fuel queue visited found, found.Nodup → start ∉ found →
      ∀ res, closestStationsLoop stars stations start count fuel queue visited found =
          some res →
        res.Nodup ∧ start ∉ res := by
  intro fuel
  induction fuel with
  | zero =>
    intro queue visited found h1 h2 res hres
    simp only [closestStationsLoop] at hres
    cases hres
    exact ⟨h1, h2⟩
  | succ fuel ih =>
    intro queue visited found h1 h2 res hres
    match queue with
    | [] =>
      simp only [closestStationsLoop] at hres
      cases hres
      exact ⟨h1, h2⟩
    | path :: rest =>
      simp only [closestStationsLoop] at hres
      by_cases hstop : count ≤ found.length
      · rw [if_pos hstop] at hres
        cases hres
        exact ⟨h1, h2⟩
      · rw [if_neg hstop] at hres
        match hlast : path.getLast? with
        | none => rw [hlast] at hres; cases hres
        | some node =>
          rw [hlast] at hres
          dsimp only at hres
          by_cases hvis : node ∈ visited
          · rw [if_pos hvis] at hres
            exact ih rest visited found h1 h2 res hres
          · rw [if_neg hvis] at hres
            match hstar : stars.lookup node with
            | none => rw [hstar] at hres; cases hres
            | some star =>
              rw [hstar] at hres
              dsimp only at hres
              have hinv := stations_fold_inv stations start star.edges path
                ([], found) h1 h2
              exact ih _ _ _ hinv.1 hinv.2 res hres

/-- C4 counterexample: on a symmetric catalog the not-hazardous search
returns six entries for `count = 5`, repeating nodes and including the
start; the trade-hub search returns three entries for `count = 2`
including the start (a trade hub).  The claim's guarantees fail for these
two predicates. -/
theorem claim_C4_counterexample :
    (closest_safe_systems cx4_stars cx4_truesec "S" 5 10 =
        some ["A", "B", "S", "C", "S", "C"] ∧
      ¬ ((["A", "B", "S", "C", "S", "C"] : List String).length ≤ 5 ∧
         (["A", "B", "S", "C", "S", "C"] : List String).Nodup ∧
         "S" ∉ (["A", "B", "S", "C", "S", "C"] : List String))) ∧
    (closest_itcs ci4_stars ci4_itcs "S" 2 10 = some ["S", "B", "C"] ∧
      ¬ ((["S", "B", "C"] : List String).length ≤ 2 ∧
         "S" ∉ (["S", "B", "C"] : List String))) := by decide

/-- C4 amended: for the station-membership search (`closest_stations`)
the claim holds — the result has at most `count` nodes, each appearing at
most once (appended only when first discovered and not yet listed), and
never the start node. -/
theorem claim_C4_amended (stars : Catalog) (stations : StationTable)
    (start : String) (count fuel : Nat) (res : List String)
    (h : closest_stations stars stations start count fuel = some res) :
    res.length ≤ count ∧ res.Nodup ∧ start ∉ res := by
  unfold closest_stations at h
  match hl : closestStationsLoop stars stations start count fuel [[start]] [] [] with
  | none => rw [hl] at h; cases h
  | some found =>
    rw [hl] at h
    simp only [Option.map_some'] at h
    cases h
    have hinv := stations_loop_inv stars stations start count fuel [[start]] [] []
      List.nodup_nil (List.not_mem_nil start) found hl
    refine ⟨?_, hinv.1.sublist (List.take_sublist count found), ?_⟩
    · exact List.length_take_le count found
    · intro hmem
      exact hinv.2 ((List.take_sublist count found).subset hmem)

theorem claim_C4_witness :
    (["B"] : List String).length ≤ 3 ∧ (["B"] : List String).Nodup ∧
      "S" ∉ (["B"] : List String) :=
  claim_C4_amended ci4_stars [("B", 1)] "S" 3 10 ["B"] (by decide)

/-! ### Claims C3 and C5: routing over the weighted graphs -/

/-! argmin lemmas -/

theorem argmin_foldl {α : Type} (f : α → Nat) :
    ∀ (xs : List α) (x : α),
      (xs.foldl (fun best y => if f y < f best then y else best) x) ∈ x :: xs ∧
      f (xs.foldl (fun best y => if f y < f best then y else best) x) ≤ f x ∧
      ∀ y ∈ xs, f (xs.foldl (fun best y => if f y < f best then y else best) x) ≤ f y := by
  intro xs
  induction xs with
  | nil => intro x; exact ⟨List.mem_singleton_self x, Nat.le_refl _, by simp⟩
  | cons z zs ih =>
    intro x
    simp only [List.foldl_cons]
    by_cases hz : f z < f x
    · rw [if_pos hz]
      obtain ⟨hmem, hle, hall⟩ := ih z
      refine ⟨?_, ?_, ?_⟩
      · rcases List.mem_cons.mp hmem with h | h
        · exact List.mem_cons_of_mem x (by rw [h]; exact List.mem_cons_self z zs)
        · exact List.mem_cons_of_mem x (List.mem_cons_of_mem z h)
      · exact Nat.le_trans hle (Nat.le_of_lt hz)
      · intro y hy
        rcases List.mem_cons.mp hy with h | h
        · rw [h]; exact hle
        · exact hall y h
    · rw [if_neg hz]
      obtain ⟨hmem, hle, hall⟩ := ih x
      refine ⟨?_, hle, ?_⟩
      · rcases List.mem_cons.mp hmem with h | h
        · rw [h]; exact List.mem_cons_self x (z :: zs)
        · exact List.mem_cons_of_mem x (List.mem_cons_of_mem z h)
      · intro y hy
        rcases List.mem_cons.mp hy with h | h
        · rw [h]; exact Nat.le_trans hle (Nat.le_of_not_lt hz)
        · exact hall y h

theorem argminBy_mem {α : Type} (f : α → Nat) (l : List α) (x : α)
    (h : argminBy f l = some x) : x ∈ l := by
  match l with
  | [] => cases h
  | z :: zs =>
    simp only [argminBy, Option.some.injEq] at h
    exact h ▸ (argmin_foldl f zs z).1

theorem argminBy_le {α : Type} (f : α → Nat) (l : List α) (x : α)
    (h : argminBy f l = some x) : ∀ y ∈ l, f x ≤ f y := by
  match l with
  | [] => cases h
  | z :: zs =>
    simp only [argminBy, Option.some.injEq] at h
    intro y hy
    obtain ⟨_, hle, hall⟩ := argmin_foldl f zs z
    rcases List.mem_cons.mp hy with hmem | hmem
    · rw [← h, hmem]; exact hle
    · rw [← h]; exact hall y hmem

theorem min_map_foldl {α : Type} (f : α → Nat) :
    ∀ (xs : List α) (x : α),
      (xs.map f).foldl min (f x) =
        f (xs.foldl (fun best y => if f y < f best then y else best) x) := by
  intro xs
  induction xs with
  | nil => intro x; rfl
  | cons z zs ih =>
    intro x
    simp only [List.map_cons, List.foldl_cons]
    have hmin : min (f x) (f z) = f (if f z < f x then z else x) := by
      by_cases hz : f z < f x
      · rw [if_pos hz, Nat.min_def, if_neg (by omega)]
      · rw [if_neg hz, Nat.min_def, if_pos (by omega)]
    rw [hmin, ih]

theorem argminBy_min_map {α : Type} (f : α → Nat) (l : List α) (x : α)
    (h : argminBy f l = some x) : (l.map f).min? = some (f x) := by
  match l with
  | [] => cases h
  | z :: zs =>
    simp only [argminBy, Option.some.injEq] at h
    simp only [List.map_cons, List.min?_cons', Option.some.injEq]
    rw [min_map_foldl f zs z, h]

/-! generic association list lemmas -/

theorem lookup_mem {β : Type} (l : List (String × β)) (k : String) (x : β)
    (h : l.lookup k = some x) : (k, x) ∈ l := by
  induction l with
  | nil => cases h
  | cons p rest ih =>
    obtain ⟨k1, b1⟩ := p
    cases hbeq : k == k1 with
    | true =>
      simp only [List.lookup_cons, hbeq] at h
      cases h
      have hk : k = k1 := beq_iff_eq.mp hbeq
      rw [hk]
      exact List.mem_cons_self _ _
    | false =>
      simp only [List.lookup_cons, hbeq] at h
      exact List.mem_cons_of_mem _ (ih h)

theorem mem_keys_lookup {β : Type} (l : List (String × β)) (v : String)
    (h : v ∈ l.map Prod.fst) : ∃ w, l.lookup v = some w := by
  induction l with
  | nil => cases h
  | cons p rest ih =>
    obtain ⟨k1, b1⟩ := p
    cases hbeq : v == k1 with
    | true => exact ⟨b1, by simp only [List.lookup_cons, hbeq]⟩
    | false =>
      rw [List.map_cons] at h
      rcases List.mem_cons.mp h with h1 | h1
      · exact absurd (beq_iff_eq.mpr h1) (by simp [hbeq])
      · obtain ⟨w, hw⟩ := ih h1
        exact ⟨w, by simp only [List.lookup_cons, hbeq, hw]⟩

/-! soundness of the simple-path enumeration -/

theorem simplePathsAux_sound (adj : String → List String) (t : String) :
    ∀ (fuel : Nat) (visited : List String) (u : String) (p : List String),
      p ∈ simplePathsAux adj t fuel visited u →
      p.head? = some u ∧ p.getLast? = some t ∧ chainOk adj p := by
  intro fuel
  induction fuel with
  | zero =>
    intro visited u p hp
    simp only [simplePathsAux] at hp
    by_cases hu : u = t
    · rw [if_pos hu] at hp
      rw [List.mem_singleton] at hp
      subst hp
      exact ⟨rfl, by rw [hu]; rfl, trivial⟩
    · rw [if_neg hu] at hp
      cases hp
  | succ fuel ih =>
    intro visited u p hp
    simp only [simplePathsAux] at hp
    by_cases hu : u = t
    · rw [if_pos hu] at hp
      rw [List.mem_singleton] at hp
      subst hp
      exact ⟨rfl, by rw [hu]; rfl, trivial⟩
    · rw [if_neg hu] at hp
      rw [List.mem_flatMap] at hp
      obtain ⟨v, hv, hpv⟩ := hp
      rw [List.mem_map] at hpv
      obtain ⟨q, hq, hq'⟩ := hpv
      obtain ⟨qh, ql, qc⟩ := ih (u :: visited) v q hq
      subst hq'
      have hvadj : v ∈ adj u := (List.mem_filter.mp hv).1
      match q, qh, ql, qc with
      | a :: rest, qh, ql, qc =>
        simp only [List.head?_cons, Option.some.injEq] at qh
        subst qh
        refine ⟨rfl, ?_, ?_⟩
        · rw [List.getLast?_cons_cons]
          exact ql
        · exact ⟨hvadj, qc⟩


/-! updateAssoc / add_edge membership and key lemmas -/

theorem updateAssoc_mem {adj : List (String × Nat)} {v : String} {w : Nat}
    {x : String} {y : Nat} (h : (x, y) ∈ updateAssoc adj v w) :
    (x, y) = (v, w) ∨ (x, y) ∈ adj := by
  induction adj with
  | nil =>
    simp only [updateAssoc, List.mem_singleton] at h
    exact Or.inl h
  | cons p rest ih =>
    obtain ⟨k1, w1⟩ := p
    simp only [updateAssoc] at h
    by_cases hk : k1 = v
    · rw [if_pos hk] at h
      rcases List.mem_cons.mp h with h1 | h1
      · exact Or.inl h1
      · exact Or.inr (List.mem_cons_of_mem _ h1)
    · rw [if_neg hk] at h
      rcases List.mem_cons.mp h with h1 | h1
      · exact Or.inr (by rw [h1]; exact List.mem_cons_self _ _)
      · rcases ih h1 with h2 | h2
        · exact Or.inl h2
        · exact Or.inr (List.mem_cons_of_mem _ h2)

theorem GraphAll_add_edge {g : Graph} {P : String → String → Nat → Prop}
    (hg : GraphAll g P) {u v : String} {w : Nat} (hP : P u v w) :
    GraphAll (add_edge g u v w) P := by
  induction g with
  | nil =>
    intro a adj ha x y hxy
    simp only [add_edge, List.mem_singleton] at ha
    cases ha
    rw [List.mem_singleton] at hxy
    cases hxy
    exact hP
  | cons p rest ih =>
    obtain ⟨k1, adj1⟩ := p
    intro a adj ha x y hxy
    simp only [add_edge] at ha
    by_cases hk : k1 = u
    · rw [if_pos hk] at ha
      rcases List.mem_cons.mp ha with h1 | h1
      · injection h1 with ha1 ha2
        subst ha1; subst ha2
        rcases updateAssoc_mem hxy with h2 | h2
        · cases h2; exact hP
        · have := hg k1 adj1 (List.mem_cons_self _ _) x y h2
          rwa [hk] at this
      · exact hg a adj (List.mem_cons_of_mem _ h1) x y hxy
    · rw [if_neg hk] at ha
      rcases List.mem_cons.mp ha with h1 | h1
      · injection h1 with e1 e2
        rw [e1]
        rw [e2] at hxy
        exact hg k1 adj1 (List.mem_cons_self _ _) x y hxy
      · have hg' : GraphAll rest P := fun b badj hb x' y' hxy' =>
          hg b badj (List.mem_cons_of_mem _ hb) x' y' hxy'
        exact ih hg' a adj h1 x y hxy

/-! keyShape lemmas -/

theorem updateAssoc_keys (adj : List (String × Nat)) (v : String) (w : Nat) :
    (updateAssoc adj v w).map Prod.fst = updateKeys (adj.map Prod.fst) v := by
  induction adj with
  | nil => rfl
  | cons p rest ih =>
    obtain ⟨k1, w1⟩ := p
    simp only [updateAssoc, List.map_cons, updateKeys]
    by_cases hk : k1 = v
    · rw [if_pos hk, if_pos hk]
      rfl
    · rw [if_neg hk, if_neg hk, List.map_cons, ih]

theorem keyShape_add_edge (g : Graph) (u v : String) (w : Nat) :
    keyShape (add_edge g u v w) = shapeAddEdge (keyShape g) u v := by
  induction g with
  | nil =>
    simp only [add_edge, keyShape, List.map_cons, List.map_nil, shapeAddEdge]
  | cons p rest ih =>
    obtain ⟨k1, adj1⟩ := p
    simp only [add_edge, keyShape, List.map_cons, shapeAddEdge]
    by_cases hk : k1 = u
    · rw [if_pos hk, if_pos hk]
      simp only [List.map_cons, updateAssoc_keys]
    · rw [if_neg hk, if_neg hk]
      simp only [List.map_cons]
      exact congrArg (List.cons _) ih

/-! the three builders have the same key shape -/

theorem build_inner_keyShape {α : Type} (m : String → Option α) (wf : α → Nat)
    (u : String) :
    ∀ (es : List String) (g g' : Graph), keyShape g = keyShape g' →
      ∀ gm, es.foldlM (fun g e => (m e).map fun x => add_edge g u e (wf x)) g =
          some gm →
        keyShape gm =
          keyShape (es.foldl (fun g e => add_edge g u e 1) g') := by
  intro es
  induction es with
  | nil =>
    intro g g' hkey gm hm
    simp only [List.foldlM_nil] at hm
    cases hm
    exact hkey
  | cons e rest ih =>
    intro g g' hkey gm hm
    simp only [List.foldlM_cons] at hm
    match hme : m e with
    | none => rw [hme] at hm; cases hm
    | some x =>
      rw [hme] at hm
      simp only [List.foldl_cons]
      refine ih (add_edge g u e (wf x)) (add_edge g' u e 1) ?_ gm hm
      rw [keyShape_add_edge, keyShape_add_edge, hkey]

theorem build_outer_keyShape {α : Type} (m : String → Option α) (wf : α → Nat) :
    ∀ (stars : Catalog) (g g' : Graph), keyShape g = keyShape g' →
      ∀ gm,
        stars.foldlM
            (fun g p =>
              p.2.edges.foldlM
                (fun g e => (m e).map fun x => add_edge g p.1 e (wf x)) g)
            g = some gm →
        keyShape gm =
          keyShape (stars.foldl
            (fun g p => p.2.edges.foldl (fun g e => add_edge g p.1 e 1) g) g') := by
  intro stars
  induction stars with
  | nil =>
    intro g g' hkey gm hm
    simp only [List.foldlM_nil] at hm
    cases hm
    exact hkey
  | cons p rest ih =>
    intro g g' hkey gm hm
    simp only [List.foldlM_cons] at hm
    match hmid : p.2.edges.foldlM
        (fun g e => (m e).map fun x => add_edge g p.1 e (wf x)) g with
    | none => rw [hmid] at hm; cases hm
    | some gmid =>
      rw [hmid] at hm
      simp only [List.foldl_cons]
      exact ih gmid _ (build_inner_keyShape m wf p.1 p.2.edges g g' hkey gmid hmid)
        gm hm


/-! weight invariants of the three builders -/

theorem build_pure_inner_all {P : String → String → Nat → Prop} (u : String) :
    ∀ (es : List String) (g : Graph), GraphAll g P → (∀ v, P u v 1) →
      GraphAll (es.foldl (fun g e => add_edge g u e 1) g) P := by
  intro es
  induction es with
  | nil => intro g hg _; exact hg
  | cons e rest ih =>
    intro g hg hP
    simp only [List.foldl_cons]
    exact ih (add_edge g u e 1) (GraphAll_add_edge hg (hP e)) hP

theorem generate_graph_all (stars : Catalog) :
    GraphAll (generate_graph stars) (fun _ _ w => w = 1) := by
  rw [generate_graph]
  have main : ∀ (ss : Catalog) (g : Graph), GraphAll g (fun _ _ w => w = 1) →
      GraphAll (ss.foldl
        (fun g p => p.2.edges.foldl (fun g e => add_edge g p.1 e 1) g) g)
        (fun _ _ w => w = 1) := by
    intro ss
    induction ss with
    | nil => intro g hg; exact hg
    | cons p rest ih =>
      intro g hg
      simp only [List.foldl_cons]
      exact ih _ (build_pure_inner_all p.1 p.2.edges g hg (fun _ => rfl))
  exact main stars [] (by intro u adj h; cases h)

theorem buildM_inner_all {α : Type} (m : String → Option α) (wf : α → Nat)
    (u : String) :
    ∀ (es : List String) (g : Graph),
      GraphAll g (fun _ v w => ∃ x, m v = some x ∧ w = wf x) →
      ∀ gm, es.foldlM (fun g e => (m e).map fun x => add_edge g u e (wf x)) g =
          some gm →
        GraphAll gm (fun _ v w => ∃ x, m v = some x ∧ w = wf x) := by
  intro es
  induction es with
  | nil =>
    intro g hg gm hm
    simp only [List.foldlM_nil] at hm
    cases hm
    exact hg
  | cons e rest ih =>
    intro g hg gm hm
    simp only [List.foldlM_cons] at hm
    match hme : m e with
    | none => rw [hme] at hm; cases hm
    | some x =>
      rw [hme] at hm
      exact ih (add_edge g u e (wf x))
        (GraphAll_add_edge hg ⟨x, hme, rfl⟩) gm hm

theorem buildM_all {α : Type} (m : String → Option α) (wf : α → Nat) :
    ∀ (stars : Catalog) (g : Graph),
      GraphAll g (fun _ v w => ∃ x, m v = some x ∧ w = wf x) →
      ∀ gm,
        stars.foldlM
            (fun g p =>
              p.2.edges.foldlM
                (fun g e => (m e).map fun x => add_edge g p.1 e (wf x)) g)
            g = some gm →
        GraphAll gm (fun _ v w => ∃ x, m v = some x ∧ w = wf x) := by
  intro stars
  induction stars with
  | nil =>
    intro g hg gm hm
    simp only [List.foldlM_nil] at hm
    cases hm
    exact hg
  | cons p rest ih =>
    intro g hg gm hm
    simp only [List.foldlM_cons] at hm
    match hmid : p.2.edges.foldlM
        (fun g e => (m e).map fun x => add_edge g p.1 e (wf x)) g with
    | none => rw [hmid] at hm; cases hm
    | some gmid =>
      rw [hmid] at hm
      exact ih gmid (buildM_inner_all m wf p.1 p.2.edges g hg gmid hmid) gm hm

theorem generate_safe_graph_all (stars : Catalog) (truesec : TruesecTable)
    (gs : Graph) (h : generate_safe_graph stars truesec = some gs) :
    GraphAll gs (fun _ v w => ∃ sec, get_rounded_sec truesec v = some sec ∧
      w = (if get_sec_status sec = "nullsec" then 10000 else 1)) := by
  exact buildM_all (get_rounded_sec truesec)
    (fun sec => if get_sec_status sec = "nullsec" then 10000 else 1) stars []
    (by intro u adj hmem; cases hmem) gs h

theorem generate_safe_graph_keyShape (stars : Catalog) (truesec : TruesecTable)
    (gs : Graph) (h : generate_safe_graph stars truesec = some gs) :
    keyShape gs = keyShape (generate_graph stars) := by
  exact build_outer_keyShape (get_rounded_sec truesec)
    (fun sec => if get_sec_status sec = "nullsec" then 10000 else 1) stars [] []
    rfl gs h

/-! succs, pathFuel, simplePaths depend only on the key shape -/

theorem succs_keyShape_lookup (g : Graph) (u : String) :
    succs g u = ((keyShape g).lookup u).getD [] := by
  induction g with
  | nil => rfl
  | cons p rest ih =>
    obtain ⟨k1, adj1⟩ := p
    cases hbeq : u == k1 with
    | true =>
      simp only [succs, keyShape, List.map_cons, List.lookup_cons, hbeq]
      rfl
    | false =>
      simp only [succs, keyShape, List.map_cons, List.lookup_cons, hbeq]
      exact ih

theorem succs_congr {g g' : Graph} (h : keyShape g = keyShape g') :
    succs g = succs g' := by
  funext u
  rw [succs_keyShape_lookup, succs_keyShape_lookup, h]

theorem pathFuel_congr {g g' : Graph} (h : keyShape g = keyShape g') :
    pathFuel g = pathFuel g' := by
  have hmap : ∀ gg : Graph, gg.map (fun p => p.2.length) =
      (keyShape gg).map (fun p => p.2.length) := by
    intro gg
    rw [keyShape, List.map_map]
    apply List.map_congr_left
    intro p _
    simp [List.length_map]
  rw [pathFuel, pathFuel, hmap, hmap, h]

theorem simplePaths_congr {g g' : Graph} (h : keyShape g = keyShape g')
    (s t : String) : simplePaths g s t = simplePaths g' s t := by
  rw [simplePaths, simplePaths, succs_congr h, pathFuel_congr h]

/-! cost lemmas -/

theorem succs_lookupW {g : Graph} {a b : String} (hb : b ∈ succs g a) :
    ∃ adj w, g.lookup a = some adj ∧ adj.lookup b = some w ∧
      (a, adj) ∈ g ∧ (b, w) ∈ adj := by
  rw [succs] at hb
  match hl : g.lookup a with
  | none => rw [hl] at hb; cases hb
  | some adj =>
    rw [hl] at hb
    simp only [Option.getD_some] at hb
    obtain ⟨w, hw⟩ := mem_keys_lookup adj b hb
    exact ⟨adj, w, rfl, hw, lookup_mem g a adj hl, lookup_mem adj b w hw⟩

theorem pathCost_unit {g : Graph} (hall : GraphAll g (fun _ _ w => w = 1)) :
    ∀ p, chainOk (succs g) p → pathCost g p = p.length - 1 := by
  intro p
  induction p with
  | nil => intro _; rfl
  | cons a rest ih =>
    cases rest with
    | nil => intro _; rfl
    | cons b r =>
      intro hc
      obtain ⟨hb, hchain⟩ := hc
      obtain ⟨adj, w, hadj, hw, hmema, hmemb⟩ := succs_lookupW hb
      have hw1 : w = 1 := hall a adj hmema b w hmemb
      have hcost : lookupW g a b = some w := by
        rw [lookupW, hadj]
        exact hw
      show (lookupW g a b).getD 0 + pathCost g (b :: r) = (a :: b :: r).length - 1
      rw [hcost, ih hchain, hw1]
      simp only [Option.getD_some, List.length_cons]
      omega

theorem sec_status_nullsec (sec : PyFloat) :
    (get_sec_status sec = "nullsec") ↔ (get_sign sec = -1) := by
  rw [get_sec_status]
  by_cases h : get_sign sec = -1
  · simp [h]
  · rw [if_neg h]
    by_cases h2 : fracLeVal ⟨1, 2⟩ sec
    · simp only [if_pos h2]
      constructor
      · intro hcon; exact absurd hcon (by decide)
      · intro hcon; exact absurd hcon h
    · simp only [if_neg h2]
      constructor
      · intro hcon; exact absurd hcon (by decide)
      · intro hcon; exact absurd hcon h

theorem pathCost_safe_tally {gs : Graph} {truesec : TruesecTable}
    (hall : GraphAll gs (fun _ v w => ∃ sec, get_rounded_sec truesec v = some sec ∧
      w = (if get_sec_status sec = "nullsec" then 10000 else 1))) :
    ∀ (l : List String) (a : String), chainOk (succs gs) (a :: l) →
      ∀ acc tl, tallyGo truesec l acc = some tl →
        pathCost gs (a :: l) + 10000 * acc.nullsec + (acc.hisec + acc.lowsec) =
          10000 * tl.nullsec + (tl.hisec + tl.lowsec) := by
  intro l
  induction l with
  | nil =>
    intro a _ acc tl ht
    simp only [tallyGo] at ht
    cases ht
    simp [pathCost]
  | cons b r ih =>
    intro a hchain acc tl ht
    obtain ⟨hb, hrest⟩ := hchain
    obtain ⟨adj, w, hadj, hw, hmema, hmemb⟩ := succs_lookupW hb
    obtain ⟨sec, hsec, hweq⟩ := hall a adj hmema b w hmemb
    have hcost : lookupW gs a b = some w := by
      rw [lookupW, hadj]
      exact hw
    have hunfold : pathCost gs (a :: b :: r) = w + pathCost gs (b :: r) := by
      show (lookupW gs a b).getD 0 + pathCost gs (b :: r) = _
      rw [hcost]
      rfl
    simp only [tallyGo] at ht
    rw [hsec] at ht
    dsimp only at ht
    by_cases hsign : get_sign sec = -1
    · rw [if_pos hsign] at ht
      have hw10000 : w = 10000 := by
        rw [hweq, if_pos ((sec_status_nullsec sec).mpr hsign)]
      have := ih b hrest _ tl ht
      dsimp only at this
      rw [hunfold, hw10000]
      omega
    · rw [if_neg hsign] at ht
      have hw1 : w = 1 := by
        rw [hweq, if_neg (fun hcon => hsign ((sec_status_nullsec sec).mp hcon))]
      by_cases hhi : fracLeVal ⟨1, 2⟩ sec = true
      · rw [if_pos hhi] at ht
        have := ih b hrest _ tl ht
        dsimp only at this
        rw [hunfold, hw1]
        omega
      · rw [if_neg hhi] at ht
        have := ih b hrest _ tl ht
        dsimp only at this
        rw [hunfold, hw1]
        omega

theorem tallyGo_sum (truesec : TruesecTable) :
    ∀ (l : List String) (acc tl : SecTally), tallyGo truesec l acc = some tl →
      tl.hisec + tl.lowsec + tl.nullsec =
        acc.hisec + acc.lowsec + acc.nullsec + l.length := by
  intro l
  induction l with
  | nil =>
    intro acc tl ht
    simp only [tallyGo] at ht
    cases ht
    simp
  | cons b r ih =>
    intro acc tl ht
    simp only [tallyGo] at ht
    match hsec : get_rounded_sec truesec b with
    | none => rw [hsec] at ht; cases ht
    | some sec =>
      rw [hsec] at ht
      dsimp only at ht
      by_cases hsign : get_sign sec = -1
      · rw [if_pos hsign] at ht
        have := ih _ tl ht
        dsimp only at this
        simp only [List.length_cons]
        omega
      · rw [if_neg hsign] at ht
        by_cases hhi : fracLeVal ⟨1, 2⟩ sec = true
        · rw [if_pos hhi] at ht
          have := ih _ tl ht
          dsimp only at this
          simp only [List.length_cons]
          omega
        · rw [if_neg hhi] at ht
          have := ih _ tl ht
          dsimp only at this
          simp only [List.length_cons]
          omega


theorem jump_path_shortest_eq (g gs gl : Graph) (ts : TruesecTable)
    (s t : String) :
    jump_path g gs gl ts s t "shortest" =
      (find_path g s t).bind fun pc =>
        (jump_path_security ts pc.1).map fun sec => ⟨pc.1, pc.2, sec⟩ := rfl

theorem jump_path_avoid_eq (g gs gl : Graph) (ts : TruesecTable)
    (s t : String) :
    jump_path g gs gl ts s t "avoid_null" =
      (find_path gs s t).bind fun pc =>
        (jump_path_security ts pc.1).map fun sec => ⟨pc.1, pc.2, sec⟩ := rfl

theorem jump_path_lowsec_eq (g gs gl : Graph) (ts : TruesecTable)
    (s t : String) :
    jump_path g gs gl ts s t "lowsec" =
      (find_path gl s t).bind fun pc =>
        (jump_path_security ts pc.1).map fun sec => ⟨pc.1, pc.2, sec⟩ := rfl

theorem jump_path_parts {ts : TruesecTable} {s t : String}
    {jp : JumpRes} {gsel : Graph}
    (h : ((find_path gsel s t).bind fun pc =>
        (jump_path_security ts pc.1).map fun sec =>
          (⟨pc.1, pc.2, sec⟩ : JumpRes)) = some jp) :
    find_path gsel s t = some (jp.nodes, jp.total_cost) ∧
      jump_path_security ts jp.nodes = some jp.security := by
  match hfp : find_path gsel s t with
  | none => rw [hfp] at h; cases h
  | some pc =>
    rw [hfp] at h
    simp only [Option.some_bind] at h
    match hsec : jump_path_security ts pc.1 with
    | none => rw [hsec] at h; cases h
    | some sec =>
      rw [hsec] at h
      simp only [Option.map_some', Option.some.injEq] at h
      cases h
      exact ⟨rfl, hsec⟩

theorem find_path_parts {g : Graph} {s t : String} {p : List String} {c : Nat}
    (h : find_path g s t = some (p, c)) :
    argminBy (pathCost g) (simplePaths g s t) = some p ∧ c = pathCost g p := by
  rw [find_path] at h
  match harg : argminBy (pathCost g) (simplePaths g s t) with
  | none => rw [harg] at h; cases h
  | some q =>
    rw [harg] at h
    simp only [Option.map_some', Option.some.injEq, Prod.mk.injEq] at h
    obtain ⟨hq, hc⟩ := h
    subst hq
    exact ⟨rfl, hc.symm⟩

/-- C5: for every reachable pair, the total cost of the Plain-strategy
shortest path equals the unweighted BFS hop distance (the fewest edges of
any path between the two nodes): every plain-graph edge costs 1, so the
minimum-cost path's cost is the minimum hop count. -/
theorem claim_C5_plain_cost_is_hop_distance (stars : Catalog) (s t : String)
    (p : List String) (c : Nat)
    (h : find_path (generate_graph stars) s t = some (p, c)) :
    bfs_hop_distance (generate_graph stars) s t = some c := by
  obtain ⟨harg, hc⟩ := find_path_parts h
  rw [bfs_hop_distance]
  have hmapeq : (simplePaths (generate_graph stars) s t).map (fun q => q.length - 1) =
      (simplePaths (generate_graph stars) s t).map (pathCost (generate_graph stars)) := by
    apply List.map_congr_left
    intro q hq
    have hs := simplePathsAux_sound (succs (generate_graph stars)) t
      (pathFuel (generate_graph stars)) [] s q hq
    rw [pathCost_unit (generate_graph_all stars) q hs.2.2]
  rw [hmapeq, argminBy_min_map _ _ p harg, hc]


/-- C3: for every reachable pair, the HazardAveraging (`avoid_null`) path
has at most as many nullsec hops as the Plain path.  The hypothesis that
the plain path has at most 10000 nodes reflects the penalty constant's
design envelope (spec section 9: path lengths well under the constant; the
real catalog has a few thousand nodes): the safe cost is
10000 * nullsec-hops + other-hops, so with other-hops < 10000 a
cost-minimal safe path cannot carry more nullsec hops than any enumerated
path. -/
theorem claim_C3_safe_no_worse (stars : Catalog) (truesec : TruesecTable)
    (gs gl : Graph) (s t : String) (jpS jpP : JumpRes)
    (hgs : generate_safe_graph stars truesec = some gs)
    (hS : jump_path (generate_graph stars) gs gl truesec s t "avoid_null" = some jpS)
    (hP : jump_path (generate_graph stars) gs gl truesec s t "shortest" = some jpP)
    (hlen : jpP.nodes.length ≤ 10000) :
    jpS.security.nullsec ≤ jpP.security.nullsec := by
  rw [jump_path_avoid_eq] at hS
  rw [jump_path_shortest_eq] at hP
  obtain ⟨hfpS, htS⟩ := jump_path_parts hS
  obtain ⟨hfpP, htP⟩ := jump_path_parts hP
  obtain ⟨hargS, _⟩ := find_path_parts hfpS
  obtain ⟨hargP, _⟩ := find_path_parts hfpP
  have hkey := generate_safe_graph_keyShape stars truesec gs hgs
  have henum : simplePaths gs s t = simplePaths (generate_graph stars) s t :=
    simplePaths_congr hkey s t
  have hmemP : jpP.nodes ∈ simplePaths gs s t := by
    rw [henum]
    exact argminBy_mem _ _ _ hargP
  have hcost_le : pathCost gs jpS.nodes ≤ pathCost gs jpP.nodes :=
    argminBy_le _ _ _ hargS jpP.nodes hmemP
  have hsoundS := simplePathsAux_sound (succs gs) t (pathFuel gs) [] s
    jpS.nodes (argminBy_mem _ _ _ hargS)
  have hsoundP := simplePathsAux_sound (succs (generate_graph stars)) t
    (pathFuel (generate_graph stars)) [] s jpP.nodes (argminBy_mem _ _ _ hargP)
  have hchainP : chainOk (succs gs) jpP.nodes := by
    rw [succs_congr hkey]
    exact hsoundP.2.2
  have hall := generate_safe_graph_all stars truesec gs hgs
  match hnodesS : jpS.nodes, hsoundS.1 with
  | aS :: lS, _ =>
  match hnodesP : jpP.nodes, hsoundP.1 with
  | aP :: lP, _ =>
  rw [hnodesS] at htS hcost_le hsoundS
  rw [hnodesP] at htP hcost_le hchainP hlen
  rw [jump_path_security] at htS htP
  simp only [List.drop_succ_cons, List.drop_zero] at htS htP
  have hcostS := pathCost_safe_tally hall lS aS hsoundS.2.2 ⟨0, 0, 0⟩ _ htS
  have hcostP := pathCost_safe_tally hall lP aP hchainP ⟨0, 0, 0⟩ _ htP
  have hsum := tallyGo_sum truesec lP ⟨0, 0, 0⟩ _ htP
  dsimp only at hcostS hcostP hsum
  have hlen' : lP.length + 1 ≤ 10000 := by
    simpa using hlen
  omega


/-- Witness for C5 on the three-node chain. -/
theorem claim_C5_witness :
    bfs_hop_distance (generate_graph wStars) "A" "C" = some 2 :=
  claim_C5_plain_cost_is_hop_distance wStars "A" "C" ["A", "B", "C"] 2 (by decide)

/-- Witness for C3 on the three-node chain (both paths have zero nullsec
hops). -/
theorem claim_C3_witness :
    (⟨["A", "B", "C"], 2, ⟨0, 2, 0⟩⟩ : JumpRes).security.nullsec ≤
      (⟨["A", "B", "C"], 2, ⟨0, 2, 0⟩⟩ : JumpRes).security.nullsec :=
  claim_C3_safe_no_worse wStars wTruesec
    [("A", [("B", 1)]), ("B", [("A", 1), ("C", 1)]), ("C", [("B", 1)])] []
    "A" "C" ⟨["A", "B", "C"], 2, ⟨0, 2, 0⟩⟩ ⟨["A", "B", "C"], 2, ⟨0, 2, 0⟩⟩
    (by decide) (by decide) (by decide) (by decide)

/-! ### Claim C2: lowsec-only routes are post-validated -/

theorem lowsec_only_all (truesec : TruesecTable) :
    ∀ l : List String, lowsec_only truesec l = some true →
      ∀ n ∈ l, (get_rounded_sec truesec n).map get_sec_status = some "lowsec" := by
  intro l
  induction l with
  | nil => intro _ n hn; cases hn
  | cons a rest ih =>
    intro h n hn
    simp only [lowsec_only] at h
    match hsec : get_rounded_sec truesec a with
    | none => rw [hsec] at h; cases h
    | some node_sec =>
      rw [hsec] at h
      dsimp only at h
      by_cases hcls : get_sec_status node_sec ≠ "lowsec"
      · rw [if_pos hcls] at h; cases h
      · rw [if_neg hcls] at h
        rcases List.mem_cons.mp hn with h1 | h1
        · rw [h1, hsec, Option.map_some']
          rw [not_not] at hcls
          rw [hcls]
        · exact ih h n h1

/-- C2: if a lowsec-only (`'lowsec'` strategy) query reports a route, every
node on that path (the start included) classifies as lowsec; any other
outcome of the lowsec branch is the explicit no-lowsec-path report, the
degenerate-pair silence, a resolution failure, or an exception — a path
containing any other classification is never returned. -/
theorem claim_C2_lowsec_postvalidated
    (stars : Catalog) (flat_lookup : List (String × String))
    (truesec : TruesecTable) (g gs gl : Graph) (st : ResolverState)
    (start end_ : String) (out : E2EOutcome) (st' : ResolverState)
    (h : calc_e2e stars flat_lookup truesec g gs gl st start end_ "lowsec" =
      some (out, st')) :
    ∀ w p j sec, out = E2EOutcome.route w p j sec →
      ∀ n ∈ p, (get_rounded_sec truesec n).map get_sec_status = some "lowsec" := by
  intro w p j sec hout n hn
  rw [calc_e2e] at h
  subst hout
  split at h
  · cases h
  · simp only [Option.some.injEq, Prod.mk.injEq] at h
    obtain ⟨h1, -⟩ := h
    cases h1
  · split at h
    · cases h
    · simp only [Option.some.injEq, Prod.mk.injEq] at h
      obtain ⟨h1, -⟩ := h
      cases h1
    · split at h
      · simp only [Option.some.injEq, Prod.mk.injEq] at h
        obtain ⟨h1, -⟩ := h
        cases h1
      · rw [if_pos rfl] at h
        split at h
        · cases h
        · rename_i lowsec_path hjp
          split at h
          · cases h
          · simp only [Option.some.injEq, Prod.mk.injEq] at h
            obtain ⟨h1, -⟩ := h
            cases h1
          · rename_i hls
            split at h
            · cases h
            · simp only [Option.some.injEq, Prod.mk.injEq] at h
              obtain ⟨h1, -⟩ := h
              injection h1 with e1 e2 e3 e4
              rw [← e2] at hn
              exact lowsec_only_all truesec lowsec_path.nodes hls n hn

/-! ### Claim C8: multi-stop aggregation -/

theorem legs_fold_totals (g gs gl : Graph) (truesec : TruesecTable)
    (strategy : String) :
    ∀ (legs : List (String × String)) (acc tot : Nat × Nat),
      legs.foldlM
          (fun (acc : Nat × Nat) leg =>
            (jump_path g gs gl truesec leg.1 leg.2 strategy).map
              fun p => (acc.1 + jump_count p, acc.2 + p.security.nullsec))
          acc = some tot →
      tot.1 = acc.1 +
        (legs.map (fun leg =>
          (jump_path g gs gl truesec leg.1 leg.2 strategy).elim 0 jump_count)).sum := by
  intro legs
  induction legs with
  | nil =>
    intro acc tot h
    simp only [List.foldlM_nil] at h
    cases h
    simp
  | cons leg rest ih =>
    intro acc tot h
    simp only [List.foldlM_cons] at h
    match hjp : jump_path g gs gl truesec leg.1 leg.2 strategy with
    | none => rw [hjp] at h; cases h
    | some p =>
      rw [hjp] at h
      have := ih _ tot h
      simp only [List.map_cons, List.sum_cons, hjp, Option.elim_some]
      dsimp only at this
      omega

theorem zip_same_filter :
    ∀ (l : List String), (∀ x ∈ l, ∀ y ∈ l, x = y) →
      (l.zip l.tail).filter
        (fun leg => leg.1 != "" && leg.2 != "" && leg.1 != leg.2) = [] := by
  intro l
  induction l with
  | nil => intro _; rfl
  | cons a rest ih =>
    intro hsame
    match rest, ih, hsame with
    | [], _, _ => rfl
    | b :: r, ih, hsame =>
      have hab : a = b :=
        hsame a (List.mem_cons_self _ _)
          b (List.mem_cons_of_mem _ (List.mem_cons_self _ _))
      simp only [List.tail_cons, List.zip_cons_cons, List.filter_cons]
      have hcond : (a != "" && b != "" && a != b) = false := by
        rw [hab]
        simp
      rw [hcond]
      simp only [Bool.false_eq_true, if_false]
      exact ih (fun x hx y hy =>
        hsame x (List.mem_cons_of_mem _ hx) y (List.mem_cons_of_mem _ hy))

/-- C8: when `calc_multistop` reports a route, at least two stops resolved
(fewer than two produce Python `None`, the inner `none`); the computed legs
are exactly the consecutive resolved pairs with degenerate (equal-endpoint)
pairs dropped; the aggregate jump total is the sum of the legs' individual
`jump_count` values; and when every stop resolves to the same canonical
node the leg list is empty — no route. -/
theorem claim_C8_multistop_totals (stars : Catalog)
    (flat_lookup : List (String × String)) (truesec : TruesecTable)
    (g gs gl : Graph) (st : ResolverState) (stops : List String)
    (strategy : String) (valid : List String) (ws : List Warning)
    (st1 : ResolverState) (r : MultistopRes) (st' : ResolverState)
    (hres : resolveStopsGo stars flat_lookup stops st [] [] = some (valid, ws, st1))
    (h : calc_multistop stars flat_lookup truesec g gs gl st stops strategy =
      some (some r, st')) :
    2 ≤ valid.length ∧
    r.legs = (valid.zip valid.tail).filter
      (fun leg => leg.1 != "" && leg.2 != "" && leg.1 != leg.2) ∧
    r.jump_total = (r.legs.map (fun leg =>
      (jump_path g gs gl truesec leg.1 leg.2 strategy).elim 0 jump_count)).sum ∧
    ((∀ x ∈ valid, ∀ y ∈ valid, x = y) → r.legs = []) := by
  rw [calc_multistop, hres] at h
  dsimp only at h
  by_cases hlen : valid.length < 2
  · rw [if_pos hlen] at h
    simp only [Option.some.injEq, Prod.mk.injEq] at h
    cases h.1
  · rw [if_neg hlen] at h
    match htot : (valid.zip valid.tail).filter
        (fun leg => leg.1 != "" && leg.2 != "" && leg.1 != leg.2) |>.foldlM
          (fun (acc : Nat × Nat) leg =>
            (jump_path g gs gl truesec leg.1 leg.2 strategy).map
              fun p => (acc.1 + jump_count p, acc.2 + p.security.nullsec))
          (0, 0) with
    | none => rw [htot] at h; cases h
    | some totals =>
      rw [htot] at h
      simp only [Option.some.injEq, Prod.mk.injEq] at h
      obtain ⟨h1, -⟩ := h
      subst h1
      refine ⟨by omega, rfl, ?_, ?_⟩
      · have := legs_fold_totals g gs gl truesec strategy _ (0, 0) totals htot
        dsimp only at this ⊢
        omega
      · intro hsame
        dsimp only
        exact zip_same_filter valid hsame

/-- Witness for C2: the reported lowsec route A-B-C on the chain has every
node lowsec (instantiated at node B). -/
theorem claim_C2_witness :
    (get_rounded_sec wTruesec "B").map get_sec_status = some "lowsec" :=
  claim_C2_lowsec_postvalidated wStars (generate_flat_lookup wStars) wTruesec
    (generate_graph wStars) []
    [("A", [("B", 1)]), ("B", [("A", 1), ("C", 1)]), ("C", [("B", 1)])]
    ⟨[], [], []⟩ "A" "C"
    (E2EOutcome.route [] ["A", "B", "C"] 2 ⟨0, 2, 0⟩) ⟨[], ["C", "A"], []⟩
    (by decide) [] ["A", "B", "C"] 2 ⟨0, 2, 0⟩ rfl "B" (by decide)

/-- Witness for C8 on the degenerate request `["A", "A"]`: both stops
resolve, the only candidate leg is dropped, and the aggregate is the empty
sum. -/
theorem claim_C8_witness :
    2 ≤ (["A", "A"] : List String).length ∧
    (⟨["A", "A"], [], 0, 0, []⟩ : MultistopRes).legs =
      ((["A", "A"] : List String).zip (["A", "A"] : List String).tail).filter
        (fun leg => leg.1 != "" && leg.2 != "" && leg.1 != leg.2) ∧
    (⟨["A", "A"], [], 0, 0, []⟩ : MultistopRes).jump_total =
      ((⟨["A", "A"], [], 0, 0, []⟩ : MultistopRes).legs.map (fun leg =>
        (jump_path (generate_graph wStars) [] [] wTruesec leg.1 leg.2
          "shortest").elim 0 jump_count)).sum ∧
    ((∀ x ∈ (["A", "A"] : List String), ∀ y ∈ (["A", "A"] : List String), x = y) →
      (⟨["A", "A"], [], 0, 0, []⟩ : MultistopRes).legs = []) :=
  claim_C8_multistop_totals wStars (generate_flat_lookup wStars) wTruesec
    (generate_graph wStars) [] [] ⟨[], [], []⟩ ["A", "A"] "shortest"
    ["A", "A"] [] ⟨[], ["A"], []⟩ ⟨["A", "A"], [], 0, 0, []⟩ ⟨[], ["A"], []⟩
    (by decide) (by decide)



/-! ### Claims C7 and C10: the resolver caches and format_system -/

/-- C7 counterexample: resolution does not cache negative outcomes.  The
token "zzz" fails to canonicalize (`fixup_system_name` returns `False`)
yet the canonicalization memo stays empty, and the token "zz" (length 2)
computes an empty fuzzy-candidate list that is likewise not recorded in
the fuzzy memo — the claim asserts both would be cached. -/
theorem claim_C7_counterexample :
    (fixup_system_name jStars (generate_flat_lookup jStars)
        ⟨[], [], []⟩ "zzz").1 = none ∧
    (fixup_system_name jStars (generate_flat_lookup jStars)
        ⟨[], [], []⟩ "zzz").2.system_fixups = [] ∧
    2 ≤ "zz".length ∧
    fresh_candidates (generate_flat_lookup jStars) "zz" = [] ∧
    (try_fuzzy_match (generate_flat_lookup jStars) ⟨[], [], []⟩ "zz").1 =
      some [] ∧
    (try_fuzzy_match (generate_flat_lookup jStars)
        ⟨[], [], []⟩ "zz").2.fuzzy_matches = [] := by
  decide

/-- C7 amended: only a flattened-index hit is stored in the
canonicalization memo, keyed by the exact token.  For an uncached token:
an exact catalog hit is returned with the state untouched (nothing is
written); a flat-lookup hit is returned and recorded; a flat-lookup miss
returns `False` leaving the state untouched; an empty fuzzy-candidate
scan is returned uncached; a nonempty scan is returned and recorded in
the fuzzy memo. -/
theorem claim_C7_amended (stars : Catalog) (flat : List (String × String))
    (st : ResolverState) (tok : String)
    (hfix : st.system_fixups.lookup tok = none)
    (hfuzz : st.fuzzy_matches.lookup tok = none)
    (hlen : 2 ≤ tok.length) :
    ((stars.lookup tok).isSome = true →
        fixup_system_name stars flat st tok = (some tok, st)) ∧
    (stars.lookup tok = none →
        ∀ v, flat.lookup (flatten tok) = some v →
          (fixup_system_name stars flat st tok).1 = some v ∧
          (fixup_system_name stars flat st tok).2.system_fixups.lookup tok =
            some v) ∧
    (stars.lookup tok = none → flat.lookup (flatten tok) = none →
        fixup_system_name stars flat st tok = (none, st)) ∧
    (fresh_candidates flat tok = [] →
        try_fuzzy_match flat st tok = (some [], st)) ∧
    (fresh_candidates flat tok ≠ [] →
        (try_fuzzy_match flat st tok).1 = some (fresh_candidates flat tok) ∧
        (try_fuzzy_match flat st tok).2.fuzzy_matches.lookup tok =
          some (fresh_candidates flat tok)) := by
  have hlt : ¬ tok.length < 2 := by omega
  refine ⟨?_, ?_, ?_, ?_, ?_⟩
  · intro hs
    simp only [fixup_system_name, hfix]
    rw [if_pos hs]
  · intro hstars v hv
    simp only [fixup_system_name, hfix, hstars, Option.isSome_none,
      Bool.false_eq_true, if_false, hv]
    exact ⟨trivial, by simp [List.lookup]⟩
  · intro hstars hv
    simp only [fixup_system_name, hfix, hstars, Option.isSome_none,
      Bool.false_eq_true, if_false, hv]
  · intro hempty
    simp only [try_fuzzy_match, hlt, if_false, hfuzz, hempty]
    rfl
  · intro hne
    simp only [try_fuzzy_match, hlt, if_false, hfuzz]
    rw [if_neg (by simpa [List.isEmpty_iff] using hne)]
    exact ⟨rfl, by simp [List.lookup]⟩

/-- C7 witness: the token "JITA" (absent from the catalog, flat hit
"jita") exercises the positive caching paths of the amended claim. -/
theorem claim_C7_witness :
    (([] : List (String × String)).lookup "JITA" = none ∧
     ([] : List (String × List String)).lookup "JITA" = none ∧
     2 ≤ "JITA".length) ∧
    (((jStars.lookup "JITA").isSome = true →
        fixup_system_name jStars (generate_flat_lookup jStars)
          ⟨[], [], []⟩ "JITA" = (some "JITA", ⟨[], [], []⟩)) ∧
     (jStars.lookup "JITA" = none →
        ∀ v, (generate_flat_lookup jStars).lookup (flatten "JITA") = some v →
          (fixup_system_name jStars (generate_flat_lookup jStars)
              ⟨[], [], []⟩ "JITA").1 = some v ∧
          (fixup_system_name jStars (generate_flat_lookup jStars)
              ⟨[], [], []⟩ "JITA").2.system_fixups.lookup "JITA" = some v) ∧
     (jStars.lookup "JITA" = none →
        (generate_flat_lookup jStars).lookup (flatten "JITA") = none →
        fixup_system_name jStars (generate_flat_lookup jStars)
          ⟨[], [], []⟩ "JITA" = (none, ⟨[], [], []⟩)) ∧
     (fresh_candidates (generate_flat_lookup jStars) "JITA" = [] →
        try_fuzzy_match (generate_flat_lookup jStars) ⟨[], [], []⟩ "JITA" =
          (some [], ⟨[], [], []⟩)) ∧
     (fresh_candidates (generate_flat_lookup jStars) "JITA" ≠ [] →
        (try_fuzzy_match (generate_flat_lookup jStars)
            ⟨[], [], []⟩ "JITA").1 =
          some (fresh_candidates (generate_flat_lookup jStars) "JITA") ∧
        (try_fuzzy_match (generate_flat_lookup jStars)
            ⟨[], [], []⟩ "JITA").2.fuzzy_matches.lookup "JITA" =
          some (fresh_candidates (generate_flat_lookup jStars) "JITA"))) :=
  ⟨⟨by rfl, by rfl, by decide⟩,
   claim_C7_amended jStars (generate_flat_lookup jStars) ⟨[], [], []⟩ "JITA"
     (by rfl) (by rfl) (by decide)⟩

theorem StInv_empty (stars : Catalog) : StInv stars ⟨[], [], []⟩ := by
  refine ⟨?_, ?_, ?_⟩
  · intro k v h
    exact nomatch h
  · intro t ht
    exact nomatch ht
  · intro k l h
    exact nomatch h

theorem mem_upsert {l : List (String × String)} {k v : String}
    {q : String × String} (h : q ∈ upsert l k v) : q = (k, v) ∨ q ∈ l := by
  unfold upsert at h
  by_cases ha : l.any (fun p => p.1 = k) = true
  · rw [if_pos ha] at h
    obtain ⟨p, hp, hq⟩ := List.mem_map.mp h
    by_cases hpk : p.1 = k
    · rw [if_pos hpk] at hq
      exact Or.inl hq.symm
    · rw [if_neg hpk] at hq
      exact Or.inr (hq ▸ hp)
  · rw [if_neg ha] at h
    rcases List.mem_append.mp h with h1 | h1
    · exact Or.inr h1
    · exact Or.inl (List.mem_singleton.mp h1)

theorem gfl_fold (stars : Catalog) (ss : List (String × Star)) :
    ∀ (acc : List (String × String)),
      (∀ p ∈ acc, p.1 = flatten p.2 ∧ (stars.lookup p.2).isSome = true) →
      (∀ q ∈ ss, (stars.lookup q.1).isSome = true) →
      ∀ p ∈ ss.foldl (fun a q => upsert a (flatten q.1) q.1) acc,
        p.1 = flatten p.2 ∧ (stars.lookup p.2).isSome = true := by
  induction ss with
  | nil => intro acc hacc _ p hp; exact hacc p hp
  | cons q rest ih =>
    intro acc hacc hss p hp
    rw [List.foldl_cons] at hp
    refine ih (upsert acc (flatten q.1) q.1) ?_
      (fun r hr => hss r (List.mem_cons_of_mem q hr)) p hp
    intro r hr
    rcases mem_upsert hr with h1 | h1
    · rw [h1]
      exact ⟨rfl, hss q (List.mem_cons_self q rest)⟩
    · exact hacc r h1

theorem gfl_pair (stars : Catalog) :
    ∀ p ∈ generate_flat_lookup stars,
      p.1 = flatten p.2 ∧ (stars.lookup p.2).isSome = true := by
  intro p hp
  unfold generate_flat_lookup at hp
  refine gfl_fold stars stars [] (fun r hr => nomatch hr) ?_ p hp
  intro q hq
  obtain ⟨w, hw⟩ := mem_keys_lookup stars q.1 (List.mem_map_of_mem Prod.fst hq)
  rw [hw]
  rfl

theorem gfl_lookup_props {stars : Catalog} {f v : String}
    (h : (generate_flat_lookup stars).lookup f = some v) :
    f = flatten v ∧ (stars.lookup v).isSome = true :=
  gfl_pair stars (f, v) (lookup_mem _ _ _ h)

theorem fixup_pure_canonical {stars : Catalog} {tok v : String}
    (h : fixup_pure stars (generate_flat_lookup stars) tok = some v) :
    (stars.lookup v).isSome = true := by
  unfold fixup_pure at h
  by_cases hs : (stars.lookup tok).isSome = true
  · rw [if_pos hs] at h
    cases h
    exact hs
  · rw [if_neg hs] at h
    exact (gfl_lookup_props h).2

theorem char_toNat_ofNat {n : Nat} (h : n.isValidChar) :
    (Char.ofNat n).toNat = n := by
  unfold Char.ofNat
  rw [dif_pos h]
  rfl

theorem toLower_toLower (c : Char) : c.toLower.toLower = c.toLower := by
  by_cases h : c.toNat ≥ 65 ∧ c.toNat ≤ 90
  · have h1 : c.toLower = Char.ofNat (c.toNat + 32) := by
      simp only [Char.toLower]
      rw [if_pos h]
    have hv : (c.toNat + 32).isValidChar := Or.inl (by omega)
    have h2 : (Char.ofNat (c.toNat + 32)).toNat = c.toNat + 32 :=
      char_toNat_ofNat hv
    have h3 : ¬((Char.ofNat (c.toNat + 32)).toNat ≥ 65 ∧
        (Char.ofNat (c.toNat + 32)).toNat ≤ 90) := by
      rw [h2]; omega
    rw [h1]
    simp only [Char.toLower]
    rw [if_neg h3]
  · have h1 : c.toLower = c := by
      simp only [Char.toLower]
      rw [if_neg h]
    simp only [h1]

theorem toLower_flattenChar (c : Char) :
    (flattenChar c).toLower = flattenChar c := by
  simp only [flattenChar]
  by_cases h : c.toLower = '0'
  · rw [if_pos h]
    decide
  · rw [if_neg h]
    exact toLower_toLower c

theorem map_toLower_flattenChar (l : List Char) :
    (l.map flattenChar).map Char.toLower = l.map flattenChar := by
  rw [List.map_map]
  exact List.map_congr_left (fun c _ => toLower_flattenChar c)

theorem fresh_mem_props {stars : Catalog} {tok v : String}
    (h : v ∈ fresh_candidates (generate_flat_lookup stars) tok) :
    (stars.lookup v).isSome = true ∧
    ((generate_flat_lookup stars).lookup
        (flatten (merge_fuzzy tok v))).isSome = true := by
  unfold fresh_candidates at h
  obtain ⟨p, hp, hpe⟩ := List.mem_filterMap.mp h
  by_cases hcond : strLower (strTake p.1 tok.length) = flatten tok
  · rw [if_pos hcond] at hpe
    obtain ⟨hkey, hsome⟩ := gfl_pair stars p hp
    injection hpe with hpe
    subst hpe
    refine ⟨hsome, ?_⟩
    have hd : p.1.data = p.2.data.map flattenChar := congrArg String.data hkey
    have hn : tok.length = tok.data.length := rfl
    have hcd : (p.1.data.take tok.length).map Char.toLower =
        tok.data.map flattenChar := congrArg String.data hcond
    rw [hd] at hcd
    rw [List.map_take, map_toLower_flattenChar] at hcd
    have hm : flatten (merge_fuzzy tok p.2) = p.1 := by
      apply String.ext
      show (merge_fuzzy tok p.2).data.map flattenChar = p.1.data
      have hmd : (merge_fuzzy tok p.2).data =
          tok.data ++ p.2.data.drop tok.length := by
        show (strTake tok tok.length ++ strDrop p.2 tok.length).data = _
        rw [String.data_append]
        show tok.data.take tok.length ++ p.2.data.drop tok.length = _
        rw [hn, List.take_length]
      rw [hmd, List.map_append, List.map_drop]
      rw [hd, ← hcd, List.take_append_drop]
    rw [hm]
    obtain ⟨w, hw⟩ := mem_keys_lookup (generate_flat_lookup stars) p.1
      (List.mem_map_of_mem Prod.fst hp)
    rw [hw]
    rfl
  · rw [if_neg hcond] at hpe
    cases hpe

theorem fixup_char (stars : Catalog) (st : ResolverState) (tok : String)
    (hinv : StInv stars st) :
    (fixup_system_name stars (generate_flat_lookup stars) st tok).1 =
      fixup_pure stars (generate_flat_lookup stars) tok ∧
    StInv stars
      (fixup_system_name stars (generate_flat_lookup stars) st tok).2 := by
  obtain ⟨hfix, hval, hfuzz⟩ := hinv
  unfold fixup_system_name
  cases hc : st.system_fixups.lookup tok with
  | some v =>
    dsimp only
    obtain ⟨h1, h2⟩ := hfix tok v hc
    refine ⟨?_, hfix, hval, hfuzz⟩
    show some v = fixup_pure stars (generate_flat_lookup stars) tok
    unfold fixup_pure
    rw [h1]
    simp only [Option.isSome_none, Bool.false_eq_true, if_false]
    exact h2.symm
  | none =>
    dsimp only
    by_cases hs : (stars.lookup tok).isSome = true
    · rw [if_pos hs]
      refine ⟨?_, hfix, hval, hfuzz⟩
      show some tok = fixup_pure stars (generate_flat_lookup stars) tok
      unfold fixup_pure
      rw [if_pos hs]
    · rw [if_neg hs]
      have hsn : stars.lookup tok = none := by
        cases hx : stars.lookup tok with
        | none => rfl
        | some s => rw [hx] at hs; exact absurd rfl hs
      cases hg : (generate_flat_lookup stars).lookup (flatten tok) with
      | some v =>
        dsimp only
        constructor
        · show some v = fixup_pure stars (generate_flat_lookup stars) tok
          unfold fixup_pure
          rw [if_neg hs]
          exact hg.symm
        · refine ⟨?_, hval, hfuzz⟩
          intro k w hk
          cases hbeq : k == tok with
          | true =>
            have hk2 : k = tok := beq_iff_eq.mp hbeq
            subst hk2
            simp only [List.lookup_cons, hbeq] at hk
            cases hk
            exact ⟨hsn, hg⟩
          | false =>
            simp only [List.lookup_cons, hbeq] at hk
            exact hfix k w hk
      | none =>
        dsimp only
        refine ⟨?_, hfix, hval, hfuzz⟩
        show (none : Option String) =
          fixup_pure stars (generate_flat_lookup stars) tok
        unfold fixup_pure
        rw [if_neg hs]
        exact hg.symm

theorem is_valid_char (stars : Catalog) (st : ResolverState) (tok : String)
    (hinv : StInv stars st) :
    (is_valid_system stars (generate_flat_lookup stars) st tok).1 =
      (fixup_pure stars (generate_flat_lookup stars) tok).isSome ∧
    StInv stars
      (is_valid_system stars (generate_flat_lookup stars) st tok).2 := by
  unfold is_valid_system
  by_cases hm : tok ∈ st.valid_systems
  · rw [if_pos hm]
    exact ⟨(hinv.2.1 tok hm).symm, hinv⟩
  · rw [if_neg hm]
    obtain ⟨h1, h2⟩ := fixup_char stars st tok hinv
    rcases hfx : fixup_system_name stars (generate_flat_lookup stars) st tok
      with ⟨o, st1⟩
    rw [hfx] at h1 h2
    dsimp only at h1 h2
    cases o with
    | some v =>
      dsimp only
      constructor
      · rw [← h1]
        rfl
      · obtain ⟨ha, hb, hc2⟩ := h2
        refine ⟨ha, ?_, hc2⟩
        intro t ht
        rcases List.mem_cons.mp ht with h3 | h3
        · subst h3
          rw [← h1]
          rfl
        · exact hb t h3
    | none =>
      dsimp only
      exact ⟨by rw [← h1]; rfl, h2⟩

theorem fuzzy_char (stars : Catalog) (st : ResolverState) (tok : String)
    (hinv : StInv stars st) (hlen : ¬ tok.length < 2) :
    (try_fuzzy_match (generate_flat_lookup stars) st tok).1 =
      some (fresh_candidates (generate_flat_lookup stars) tok) ∧
    StInv stars
      (try_fuzzy_match (generate_flat_lookup stars) st tok).2 := by
  obtain ⟨hfix, hval, hfuzz⟩ := hinv
  unfold try_fuzzy_match
  rw [if_neg hlen]
  cases hc : st.fuzzy_matches.lookup tok with
  | some cached =>
    dsimp only
    obtain ⟨h1, _⟩ := hfuzz tok cached hc
    exact ⟨by rw [h1], hfix, hval, hfuzz⟩
  | none =>
    dsimp only
    by_cases he :
        (fresh_candidates (generate_flat_lookup stars) tok).isEmpty = true
    · rw [if_pos he]
      exact ⟨rfl, hfix, hval, hfuzz⟩
    · rw [if_neg he]
      refine ⟨rfl, hfix, hval, ?_⟩
      intro k l hk
      cases hbeq : k == tok with
      | true =>
        have hk2 : k = tok := beq_iff_eq.mp hbeq
        subst hk2
        simp only [List.lookup_cons, hbeq] at hk
        cases hk
        exact ⟨rfl, fun hnil => he (List.isEmpty_iff.mpr hnil)⟩
      | false =>
        simp only [List.lookup_cons, hbeq] at hk
        exact hfuzz k l hk

theorem check_oh_some (stars : Catalog) (st : ResolverState) (tok : String)
    (hinv : StInv stars st)
    (hp : (fixup_pure stars (generate_flat_lookup stars) tok).isSome = true) :
    ∃ b st1,
      check_oh_mixup stars (generate_flat_lookup stars) st tok =
        some (b, st1) ∧ StInv stars st1 := by
  obtain ⟨h1, h2⟩ := fixup_char stars st tok hinv
  unfold check_oh_mixup
  rcases hfx : fixup_system_name stars (generate_flat_lookup stars) st tok
    with ⟨o, st1⟩
  rw [hfx] at h1 h2
  dsimp only at h1 h2
  cases o with
  | some v =>
    dsimp only
    exact ⟨_, st1, rfl, h2⟩
  | none =>
    rw [← h1] at hp
    exact Bool.noConfusion hp

theorem fixup_eq (stars : Catalog) (st : ResolverState) (tok : String)
    (hinv : StInv stars st) :
    ∃ st1, fixup_system_name stars (generate_flat_lookup stars) st tok =
        (fixup_pure stars (generate_flat_lookup stars) tok, st1) ∧
      StInv stars st1 := by
  obtain ⟨h1, h2⟩ := fixup_char stars st tok hinv
  refine ⟨(fixup_system_name stars (generate_flat_lookup stars) st tok).2,
    ?_, h2⟩
  rw [← h1]

theorem is_valid_eq (stars : Catalog) (st : ResolverState) (tok : String)
    (hinv : StInv stars st) :
    ∃ st1, is_valid_system stars (generate_flat_lookup stars) st tok =
        ((fixup_pure stars (generate_flat_lookup stars) tok).isSome, st1) ∧
      StInv stars st1 := by
  obtain ⟨h1, h2⟩ := is_valid_char stars st tok hinv
  refine ⟨(is_valid_system stars (generate_flat_lookup stars) st tok).2,
    ?_, h2⟩
  rw [← h1]

theorem fuzzy_eq (stars : Catalog) (st : ResolverState) (tok : String)
    (hinv : StInv stars st) (hlen : ¬ tok.length < 2) :
    ∃ st1, try_fuzzy_match (generate_flat_lookup stars) st tok =
        (some (fresh_candidates (generate_flat_lookup stars) tok), st1) ∧
      StInv stars st1 := by
  obtain ⟨h1, h2⟩ := fuzzy_char stars st tok hinv hlen
  refine ⟨(try_fuzzy_match (generate_flat_lookup stars) st tok).2, ?_, h2⟩
  rw [← h1]

/-- C10: every resolution through `format_system` yields either a canonical
catalog name (warnings then at most an O/0 mixup) or the not-resolved value
with a non-empty warning list holding an unknown-system or ambiguous-match
warning. -/
theorem claim_C10_format_system (stars : Catalog) (st : ResolverState)
    (tok : String) (res : Option String) (ws : List Warning)
    (st2 : ResolverState) (hinv : StInv stars st)
    (h : format_system stars (generate_flat_lookup stars) st tok =
        some ((res, ws), st2)) :
    (∀ c, res = some c → (stars.lookup c).isSome = true ∧
        ∀ w ∈ ws, w.isOhMixup = true) ∧
    (res = none → ws ≠ [] ∧
        ∃ w ∈ ws, w.isUnknown = true ∨ w.isAmbiguous = true) := by
  unfold format_system at h
  obtain ⟨st1, hval, hinv1⟩ := is_valid_eq stars st tok hinv
  rw [hval] at h
  cases hfp : fixup_pure stars (generate_flat_lookup stars) tok with
  | some v0 =>
    rw [hfp] at h
    simp only [Option.isSome_some] at h
    obtain ⟨st3, hfx, hinv3⟩ := fixup_eq stars st1 tok hinv1
    rw [hfx] at h
    rw [hfp] at h
    dsimp only at h
    obtain ⟨m, st4, hoh, hinv4⟩ := check_oh_some stars st3 tok hinv3
      (by rw [hfp]; rfl)
    rw [hoh] at h
    dsimp only at h
    injection h with h
    injection h with hpair hst
    injection hpair with hres hws
    constructor
    · intro c hc
      rw [← hres] at hc
      injection hc with hc
      subst hc
      refine ⟨fixup_pure_canonical hfp, ?_⟩
      intro w hw
      rw [← hws] at hw
      cases m with
      | true =>
        rw [if_pos rfl] at hw
        rw [List.mem_singleton.mp hw]
        rfl
      | false =>
        rw [if_neg Bool.false_ne_true] at hw
        cases hw
    · intro hcn
      rw [← hres] at hcn
      exact Option.noConfusion hcn
  | none =>
    rw [hfp] at h
    simp only [Option.isSome_none] at h
    by_cases hl : tok.length < 2
    · have hfz : try_fuzzy_match (generate_flat_lookup stars) st1 tok =
          (none, st1) := by
        unfold try_fuzzy_match
        rw [if_pos hl]
      rw [hfz] at h
      dsimp only at h
      injection h with h
      injection h with hpair hst
      injection hpair with hres hws
      constructor
      · intro c hc
        rw [← hres] at hc
        exact Option.noConfusion hc
      · intro _
        refine ⟨?_, Warning.unknown tok, ?_, Or.inl rfl⟩
        · rw [← hws]
          exact List.cons_ne_nil _ _
        · rw [← hws]
          exact List.mem_singleton.mpr rfl
    · obtain ⟨st3, hfz, hinv3⟩ := fuzzy_eq stars st1 tok hinv1 hl
      rw [hfz] at h
      cases hfr : fresh_candidates (generate_flat_lookup stars) tok with
      | nil =>
        rw [hfr] at h
        dsimp only at h
        injection h with h
        injection h with hpair hst
        injection hpair with hres hws
        constructor
        · intro c hc
          rw [← hres] at hc
          exact Option.noConfusion hc
        · intro _
          refine ⟨?_, Warning.unknown tok, ?_, Or.inl rfl⟩
          · rw [← hws]
            exact List.cons_ne_nil _ _
          · rw [← hws]
            exact List.mem_singleton.mpr rfl
      | cons f0 ftail =>
        rw [hfr] at h
        cases ftail with
        | nil =>
          dsimp only at h
          have hf0 : f0 ∈ fresh_candidates (generate_flat_lookup stars) tok := by
            rw [hfr]
            exact List.mem_cons_self f0 []
          obtain ⟨hf0s, hf0m⟩ := fresh_mem_props hf0
          have hp0 : fixup_pure stars (generate_flat_lookup stars) f0 =
              some f0 := by
            unfold fixup_pure
            rw [if_pos hf0s]
          obtain ⟨st4, hgx, hinv4⟩ := fixup_eq stars st3 f0 hinv3
          rw [hgx] at h
          rw [hp0] at h
          dsimp only at h
          have hpm : (fixup_pure stars (generate_flat_lookup stars)
              (merge_fuzzy tok f0)).isSome = true := by
            unfold fixup_pure
            by_cases hsm : (stars.lookup (merge_fuzzy tok f0)).isSome = true
            · rw [if_pos hsm]
              rfl
            · rw [if_neg hsm]
              exact hf0m
          obtain ⟨m, st5, hoh, hinv5⟩ :=
            check_oh_some stars st4 (merge_fuzzy tok f0) hinv4 hpm
          rw [hoh] at h
          dsimp only at h
          injection h with h
          injection h with hpair hst
          injection hpair with hres hws
          constructor
          · intro c hc
            rw [← hres] at hc
            injection hc with hc
            subst hc
            refine ⟨hf0s, ?_⟩
            intro w hw
            rw [← hws] at hw
            cases m with
            | true =>
              rw [if_pos rfl] at hw
              rw [List.mem_singleton.mp hw]
              rfl
            | false =>
              rw [if_neg Bool.false_ne_true] at hw
              cases hw
          · intro hcn
            rw [← hres] at hcn
            exact Option.noConfusion hcn
        | cons f1 frest =>
          dsimp only at h
          injection h with h
          injection h with hpair hst
          injection hpair with hres hws
          constructor
          · intro c hc
            rw [← hres] at hc
            exact Option.noConfusion hc
          · intro _
            refine ⟨?_, Warning.ambiguous (f0 :: f1 :: frest), ?_, Or.inr rfl⟩
            · rw [← hws]
              exact List.cons_ne_nil _ _
            · rw [← hws]
              exact List.mem_singleton.mpr rfl

/-- C10 witness: resolving the exact catalog name in a fresh resolver state. -/
theorem claim_C10_witness :
    StInv jStars ⟨[], [], []⟩ ∧
    ((∀ c, (some "Jita" : Option String) = some c →
        (jStars.lookup c).isSome = true ∧
        ∀ w ∈ ([] : List Warning), w.isOhMixup = true) ∧
     ((some "Jita" : Option String) = none → ([] : List Warning) ≠ [] ∧
        ∃ w ∈ ([] : List Warning),
          w.isUnknown = true ∨ w.isAmbiguous = true)) :=
  ⟨StInv_empty jStars,
   claim_C10_format_system jStars ⟨[], [], []⟩ "Jita" (some "Jita") []
     ⟨[], ["Jita"], []⟩ (StInv_empty jStars) (by rfl)⟩

end Jumpbot
